import Mathlib

/-!
Verification of the brainfeed compiler (emission engine, allocator,
front-end lowering) and the minibf reference tape VM against their
natural-language specification.

The Rust sources are embedded shallowly:
  * `Minibf` models minibf/src/lib.rs (the reference interpreter);
  * `Brainfeed` models src/lib.rs (the emission `Context` with the cursor,
    the stack allocator and the known-value shadow) and the part of
    src/trans.rs / src/ir.rs needed by the front-end claims.

Machine integers are modelled as `Nat`; arithmetic the source performs with
`wrapping_add`/`wrapping_sub` is modelled with an explicit `% 256`
(or `% 30000` for the data pointer), while arithmetic the source performs
with the plain `+`/`-` operators on `u8` (which is overflow-checked) is
modelled as a fallible operation returning `Option`.  Every panic in the
source (`unimplemented!`, failed `assert!`, out-of-bounds index, overflow)
is modelled as `none`.
-/

namespace Minibf

/-- MEM_SIZE from minibf: the fixed tape size. -/
def MEM_SIZE : Nat := 30000

/-- MAX_STEPS from minibf: the hard step limit. -/
def MAX_STEPS : Nat := 1000000

/-- The VM state: tape, data pointer, loop stack and instruction pointer.
The tape `mem` is modelled as a total function; all writes keep values
below 256 (`wrapping_add`/`wrapping_sub` on `u8`). -/
structure VMSt where
  mem : Nat → Nat
  dp : Nat
  stk : List Nat
  ip : Nat

/-- Point update of the tape. -/
def updMem (m : Nat → Nat) (i v : Nat) : Nat → Nat :=
  fun j => if j = i then v else m j

/-- The scan loop of `loop_start`: from the `[` at index `i` with `n`
unclosed brackets, advance until the matching `]`; the Rust code indexes
`code[self.ip]` unconditionally, so running past the end is a panic
(`none`).  Returns the index one past the matching `]`. -/
def scanAux (code : List Char) : Nat → Nat → Nat → Option Nat
  | 0, _, _ => none
  | fuel+1, i, n =>
    match code.get? (i + 1) with
    | none => none
    | some c =>
      let n2 := if c = '[' then n + 1 else if c = ']' then n - 1 else n
      if n2 = 0 then some (i + 2) else scanAux code fuel (i + 1) n2

/-- One dispatch step of `VM::run`'s match.  `.` and `,` are
`unimplemented!` in the source and therefore panic (`none`); an
unrecognized byte falls through to the empty arm. -/
def step (code : List Char) (st : VMSt) : Option VMSt :=
  match code.get? st.ip with
  | none => none
  | some c =>
    if c = '<' then
      some { st with dp := (st.dp + (MEM_SIZE - 1)) % MEM_SIZE, ip := st.ip + 1 }
    else if c = '>' then
      some { st with dp := (st.dp + 1) % MEM_SIZE, ip := st.ip + 1 }
    else if c = '+' then
      some { st with mem := updMem st.mem st.dp ((st.mem st.dp + 1) % 256), ip := st.ip + 1 }
    else if c = '-' then
      some { st with mem := updMem st.mem st.dp ((st.mem st.dp + 255) % 256), ip := st.ip + 1 }
    else if c = '[' then
      if st.mem st.dp ≠ 0 then
        some { st with stk := st.ip :: st.stk, ip := st.ip + 1 }
      else
        (scanAux code code.length st.ip 1).map fun r => { st with ip := r }
    else if c = ']' then
      match st.stk with
      | [] => none
      | j :: rest => some { st with ip := j, stk := rest }
    else if c = '.' then none
    else if c = ',' then none
    else some { st with ip := st.ip + 1 }

/-- `VM::run`: execute until the instruction pointer leaves the code.
`fuel` is the number of operations still allowed by the step-limit
assertion; exceeding it is a panic (`none`). -/
def run (code : List Char) : Nat → VMSt → Option VMSt
  | 0, st => if st.ip < code.length then none else some st
  | f+1, st =>
    if st.ip < code.length then
      match step code st with
      | none => none
      | some st2 => run code f st2
    else some st

/-! Small-step reasoning helpers for `run`. -/

theorem step_gt_at (code : List Char) (st : VMSt) (h : code.get? st.ip = some '>') :
    step code st = some { st with dp := (st.dp + 1) % MEM_SIZE, ip := st.ip + 1 } := by
  unfold step; rw [h]; rfl

theorem step_lt_at (code : List Char) (st : VMSt) (h : code.get? st.ip = some '<') :
    step code st = some { st with dp := (st.dp + (MEM_SIZE - 1)) % MEM_SIZE, ip := st.ip + 1 } := by
  unfold step; rw [h]; rfl

theorem step_plus_at (code : List Char) (st : VMSt) (h : code.get? st.ip = some '+') :
    step code st =
      some { st with mem := updMem st.mem st.dp ((st.mem st.dp + 1) % 256), ip := st.ip + 1 } := by
  unfold step; rw [h]; rfl

theorem step_minus_at (code : List Char) (st : VMSt) (h : code.get? st.ip = some '-') :
    step code st =
      some { st with mem := updMem st.mem st.dp ((st.mem st.dp + 255) % 256), ip := st.ip + 1 } := by
  unfold step; rw [h]; rfl

theorem step_lbrack_enter (code : List Char) (st : VMSt) (h : code.get? st.ip = some '[')
    (hne : st.mem st.dp ≠ 0) :
    step code st = some { st with stk := st.ip :: st.stk, ip := st.ip + 1 } := by
  unfold step; rw [h]; simp only [reduceIte]; rw [if_pos hne]; rfl

theorem step_lbrack_skip (code : List Char) (st : VMSt) (h : code.get? st.ip = some '[')
    (hz : st.mem st.dp = 0) :
    step code st = (scanAux code code.length st.ip 1).map fun r => { st with ip := r } := by
  unfold step; rw [h]; simp only [reduceIte]
  rw [if_neg (show ¬ st.mem st.dp ≠ 0 by simp [hz])]; rfl

theorem step_rbrack_pop (code : List Char) (st : VMSt) (j : Nat) (rest : List Nat)
    (h : code.get? st.ip = some ']') (hstk : st.stk = j :: rest) :
    step code st = some { st with ip := j, stk := rest } := by
  unfold step; rw [h]; simp only [reduceIte]; rw [hstk]; rfl

/-- One step of `run` when an instruction is available. -/
theorem run_succ_of_step (code : List Char) (f : Nat) (st st2 : VMSt)
    (hip : st.ip < code.length) (hstep : step code st = some st2) :
    run code (f + 1) st = run code f st2 := by
  show (if st.ip < code.length then
      match step code st with
      | none => none
      | some st2 => run code f st2
    else some st) = run code f st2
  rw [if_pos hip, hstep]

/-- `run` at a state already past the code end. -/
theorem run_done (code : List Char) (f : Nat) (st : VMSt) (h : ¬ st.ip < code.length) :
    run code f st = some st := by
  cases f with
  | zero => show (if st.ip < code.length then none else some st) = some st; rw [if_neg h]
  | succ f =>
    show (if st.ip < code.length then _ else some st) = some st
    rw [if_neg h]

/-- Fuel monotonicity of `run`. -/
theorem run_mono : ∀ (f1 : Nat) (code : List Char) (st st2 : VMSt),
    run code f1 st = some st2 → ∀ f2, f1 ≤ f2 → run code f2 st = some st2 := by
  intro f1
  induction f1 with
  | zero =>
    intro code st st2 h f2 _
    by_cases hip : st.ip < code.length
    · exact absurd h (by simp [run, if_pos hip])
    · rw [run_done code f2 st hip]
      rw [run_done code 0 st hip] at h
      exact h
  | succ f ih =>
    intro code st st2 h f2 hle
    by_cases hip : st.ip < code.length
    · cases hs : step code st with
      | none =>
        exfalso
        rw [show run code (f + 1) st = none by
          show (if st.ip < code.length then _ else some st) = none
          rw [if_pos hip, hs]] at h
        exact Option.noConfusion h
      | some st3 =>
        rw [run_succ_of_step code f st st3 hip hs] at h
        cases f2 with
        | zero => omega
        | succ f2 =>
          rw [run_succ_of_step code f2 st st3 hip hs]
          exact ih code st3 st2 h f2 (by omega)
    · rw [run_done code f2 st hip]
      rw [run_done code (f + 1) st hip] at h
      exact h

theorem replicate_get? : ∀ (n i : Nat) (a : Char), i < n →
    (List.replicate n a).get? i = some a := by
  intro n
  induction n with
  | zero => intro i a h; omega
  | succ n ih =>
    intro i a h
    cases i with
    | zero => rfl
    | succ i => exact ih i a (by omega)

/-- Running a block of `d` consecutive `>` bytes. -/
theorem run_rights (code : List Char) : ∀ (d f : Nat) (st : VMSt),
    (∀ k, k < d → code.get? (st.ip + k) = some '>') →
    st.dp + d < MEM_SIZE →
    run code (d + f) st = run code f { st with ip := st.ip + d, dp := st.dp + d } := by
  intro d
  induction d with
  | zero => intro f st _ _; rw [Nat.zero_add]; rfl
  | succ d ih =>
    intro f st hseg hdp
    have h0 := hseg 0 (by omega)
    rw [Nat.add_zero] at h0
    have hip : st.ip < code.length := by
      obtain ⟨hlt, _⟩ := List.get?_eq_some.mp h0
      exact hlt
    have hstep := step_gt_at code st h0
    have hmod : (st.dp + 1) % MEM_SIZE = st.dp + 1 := Nat.mod_eq_of_lt (by omega)
    rw [hmod] at hstep
    rw [show d + 1 + f = (d + f) + 1 from by omega,
      run_succ_of_step code (d + f) st _ hip hstep]
    rw [ih f { st with dp := st.dp + 1, ip := st.ip + 1 }
      (by intro k hk
          have := hseg (k + 1) (by omega)
          rw [show st.ip + (k + 1) = st.ip + 1 + k from by omega] at this
          exact this)
      (by show st.dp + 1 + d < MEM_SIZE; omega)]
    have h1 : st.ip + 1 + d = st.ip + (d + 1) := by omega
    have h2 : st.dp + 1 + d = st.dp + (d + 1) := by omega
    rw [h1, h2]

/-- Running a block of `d` consecutive `<` bytes (no wrap-around). -/
theorem run_lefts (code : List Char) : ∀ (d f : Nat) (st : VMSt),
    (∀ k, k < d → code.get? (st.ip + k) = some '<') →
    d ≤ st.dp → st.dp < MEM_SIZE →
    run code (d + f) st = run code f { st with ip := st.ip + d, dp := st.dp - d } := by
  intro d
  induction d with
  | zero =>
    intro f st _ _ _
    rw [Nat.zero_add]
    rfl
  | succ d ih =>
    intro f st hseg hd hdp
    have h0 := hseg 0 (by omega)
    rw [Nat.add_zero] at h0
    have hip : st.ip < code.length := by
      obtain ⟨hlt, _⟩ := List.get?_eq_some.mp h0
      exact hlt
    have hstep := step_lt_at code st h0
    have hM : MEM_SIZE = 30000 := rfl
    have hmod : (st.dp + (MEM_SIZE - 1)) % MEM_SIZE = st.dp - 1 := by
      rw [hM]; omega
    rw [hmod] at hstep
    rw [show d + 1 + f = (d + f) + 1 from by omega,
      run_succ_of_step code (d + f) st _ hip hstep]
    rw [ih f { st with dp := st.dp - 1, ip := st.ip + 1 }
      (by intro k hk
          have := hseg (k + 1) (by omega)
          rw [show st.ip + (k + 1) = st.ip + 1 + k from by omega] at this
          exact this)
      (by show d ≤ st.dp - 1; omega) (by show st.dp - 1 < MEM_SIZE; omega)]
    have h1 : st.ip + 1 + d = st.ip + (d + 1) := by omega
    have h2 : st.dp - 1 - d = st.dp - (d + 1) := by omega
    rw [h1, h2]

/-- The `[`-scan over a segment that contains no brackets until the
closing `]`. -/
theorem scan_no_brackets (code : List Char) : ∀ (fuel i j : Nat),
    i < j →
    (∀ k, i < k → k < j → ∃ c, code.get? k = some c ∧ c ≠ '[' ∧ c ≠ ']') →
    code.get? j = some ']' →
    j - i ≤ fuel →
    scanAux code fuel i 1 = some (j + 1) := by
  intro fuel
  induction fuel with
  | zero => intro i j hij _ _ hf; omega
  | succ fuel ih =>
    intro i j hij hmid hj hf
    by_cases hnext : i + 1 = j
    · subst hnext
      show scanAux code (fuel + 1) i 1 = some (i + 1 + 1)
      unfold scanAux
      rw [hj]
      rfl
    · have hin : i + 1 < j := by omega
      obtain ⟨c, hc, hc1, hc2⟩ := hmid (i + 1) (by omega) hin
      unfold scanAux
      rw [hc]
      simp only [if_neg hc1, if_neg hc2]
      rw [if_neg (by omega : ¬ (1 : Nat) = 0)]
      exact ih (i + 1) j hin
        (fun k h1 h2 => hmid k (by omega) h2) hj (by omega)

/-- Fresh start: the tape is all zero, the data pointer is at 0. -/
def zeroMem : Nat → Nat := fun _ => 0

/-- Initial VM state on a given tape. -/
def start (mem : Nat → Nat) : VMSt := ⟨mem, 0, [], 0⟩

/-- Observation: the value of cell `i` after a possibly-failing run. -/
def memAt (r : Option VMSt) (i : Nat) : Option Nat :=
  r.map fun st => st.mem i

/-- Observation: the data pointer after a possibly-failing run. -/
def dpAt (r : Option VMSt) : Option Nat :=
  r.map VMSt.dp

end Minibf

namespace Brainfeed

/-- Checked `u8` addition (the Rust `+` operator on `u8`): panics (`none`)
on overflow. -/
def chkAdd (a b : Nat) : Option Nat :=
  if a + b ≤ 255 then some (a + b) else none

/-- Checked `u8` subtraction (the Rust `-` operator on `u8`): panics
(`none`) on underflow. -/
def chkSub (a b : Nat) : Option Nat :=
  if b ≤ a then some (a - b) else none

/-- The emission `Context` of src/lib.rs.

`code` is the append-only output buffer, `addr` the cursor (an `isize` in
the source, hence `Int`), `stackPointers` the allocator slots (`true` =
the weak reference upgrades, i.e. a live handle; `false` = free) and
`knownValues` the known-value shadow tape.

`marks` is ghost instrumentation that does not exist in the source: it
records, for every non-seek byte the context emits, the pair
(length of the emitted stream including that byte, cursor at emission).
It is used only to state the cursor-soundness claim and influences
nothing. -/
structure Ctx where
  code : List Char
  addr : Int
  stackPointers : List Bool
  knownValues : List (Option Nat)
  marks : List (Nat × Int)
deriving DecidableEq

/-- `Context::new` on an empty buffer: cursor at 0, nothing known. -/
def fresh : Ctx := ⟨[], 0, [], [], []⟩

/-- Append raw seek bytes (no ghost mark). -/
def emitRaw (ctx : Ctx) (cs : List Char) : Ctx :=
  { ctx with code := ctx.code ++ cs }

/-- Append one non-seek byte, recording a ghost mark. -/
def emitOp (ctx : Ctx) (c : Char) : Ctx :=
  { ctx with
    code := ctx.code ++ [c]
    marks := ctx.marks ++ [(ctx.code.length + 1, ctx.addr)] }

/-- `Context::seek`: emit `>` or `<` repeatedly to move the cursor. -/
def seek (ptr : Int) (ctx : Ctx) : Ctx :=
  let offset := ptr - ctx.addr
  let dir := if 0 < offset then '>' else '<'
  { emitRaw ctx (List.replicate offset.natAbs dir) with addr := ptr }

/-- `Context::forget_known_values`. -/
def forgetAll (ctx : Ctx) : Ctx :=
  { ctx with knownValues := ctx.knownValues.map fun _ => none }

/-- `Context::map_known_value`; the closure is fallible because the
closures passed in the source use checked `u8` arithmetic. -/
def mapKnownValue (ptr : Int) (f : Nat → Option Nat) (ctx : Ctx) : Option Ctx :=
  if ptr < 0 then some ctx
  else
    match ctx.knownValues.get? ptr.toNat with
    | some (some v) =>
      (f v).map fun v2 =>
        { ctx with knownValues := ctx.knownValues.set ptr.toNat (some v2) }
    | _ => some ctx

/-- `Context::assume`. -/
def assume (ptr : Int) (v : Nat) (ctx : Ctx) : Ctx :=
  if ptr < 0 then ctx
  else
    let a := ptr.toNat
    let kv := ctx.knownValues ++ List.replicate (a + 1 - ctx.knownValues.length) none
    { ctx with knownValues := kv.set a (some v) }

/-- `Context::assume_bool` (its debug assertions on the bool/u8
correspondence hold trivially). -/
def assumeBool (ptr : Int) (b : Bool) (ctx : Ctx) : Ctx :=
  assume ptr (if b then 1 else 0) ctx

/-- `Context::value`. -/
def value (ptr : Int) (ctx : Ctx) : Option Nat :=
  if ptr < 0 then none
  else
    match ctx.knownValues.get? ptr.toNat with
    | some (some v) => some v
    | _ => none

/-- `Context::forget`. -/
def forget (ptr : Int) (ctx : Ctx) : Ctx :=
  if ptr < 0 then ctx
  else
    match ctx.knownValues.get? ptr.toNat with
    | some _ => { ctx with knownValues := ctx.knownValues.set ptr.toNat none }
    | none => ctx

/-- First free slot of the allocator (`Iterator::position` of the slot
whose weak pointer no longer upgrades). -/
def firstFree : List Bool → Option Nat
  | [] => none
  | b :: rest => if b then (firstFree rest).map (· + 1) else some 0

/-- `Context::stack_alloc`: reuse the first free slot, or append one. -/
def stackAlloc (sp : List Bool) : Nat × List Bool :=
  match firstFree sp with
  | some a => (a, sp.set a true)
  | none => (sp.length, sp ++ [true])

/-- Release of a handle: its `Arc` is dropped, so the weak reference in the
allocator stops upgrading and the slot is free again. -/
def release (sp : List Bool) (a : Nat) : List Bool :=
  sp.set a false

/-- `Context::with_stack_alloc`: allocate, run the closure, release. -/
def withStackAlloc (f : Int → Ctx → Option Ctx) (ctx : Ctx) : Option Ctx :=
  let (a, sp) := stackAlloc ctx.stackPointers
  (f (a : Int) { ctx with stackPointers := sp }).map fun c =>
    { c with stackPointers := release c.stackPointers a }

/-- `Context::with_stack_alloc2`. -/
def withStackAlloc2 (f : Int → Int → Ctx → Option Ctx) (ctx : Ctx) : Option Ctx :=
  withStackAlloc (fun p1 => withStackAlloc (fun p2 => f p1 p2)) ctx

/-- `Context::with_stack_alloc3`. -/
def withStackAlloc3 (f : Int → Int → Int → Ctx → Option Ctx) (ctx : Ctx) : Option Ctx :=
  withStackAlloc2 (fun p1 p2 => withStackAlloc (fun p3 => f p1 p2 p3)) ctx

/-- `Context::with_stack_alloc4`. -/
def withStackAlloc4 (f : Int → Int → Int → Int → Ctx → Option Ctx) (ctx : Ctx) : Option Ctx :=
  withStackAlloc3 (fun p1 p2 p3 => withStackAlloc (fun p4 => f p1 p2 p3 p4)) ctx

/-- `Context::clear`: skip if known 0; else seek, emit the bytes of the
clear loop, record 0. -/
def clear (ptr : Int) (ctx : Ctx) : Option Ctx :=
  if value ptr ctx = some 0 then some ctx
  else
    let c := seek ptr ctx
    let c := emitOp (emitOp (emitOp c '[') '-') ']'
    some (assume ptr 0 c)

/-- `Context::increment_by`: emit `n` copies of the increment byte, update
the shadow with checked addition. -/
def incrementBy (ptr : Int) (amount : Nat) (ctx : Ctx) : Option Ctx :=
  let c := seek ptr ctx
  let c := (List.replicate amount '+').foldl emitOp c
  mapKnownValue ptr (fun v => chkAdd v amount) c

/-- `Context::set`: skip if already known to hold the value; else seek,
clear and increment up. -/
def set (ptr : Int) (v : Nat) (ctx : Ctx) : Option Ctx :=
  if value ptr ctx = some v then some ctx
  else
    (clear ptr (seek ptr ctx)).bind (incrementBy ptr v)

/-- `Context::increment`. -/
def increment (ptr : Int) (ctx : Ctx) : Option Ctx :=
  let c := emitOp (seek ptr ctx) '+'
  mapKnownValue ptr (fun v => chkAdd v 1) c

/-- `Context::decrement`. -/
def decrement (ptr : Int) (ctx : Ctx) : Option Ctx :=
  let c := emitOp (seek ptr ctx) '-'
  mapKnownValue ptr (fun v => chkSub v 1) c

/-- `Context::decrement_by`. -/
def decrementBy (ptr : Int) (amount : Nat) (ctx : Ctx) : Option Ctx :=
  let c := seek ptr ctx
  let c := (List.replicate amount '-').foldl emitOp c
  mapKnownValue ptr (fun v => chkSub v amount) c

/-- `Context::set_bool`.  Note that the source matches only on the known
value of the cell and never consults `value` in the first two arms. -/
def setBool (ptr : Int) (b : Bool) (ctx : Ctx) : Option Ctx :=
  match value ptr ctx with
  | some 0 => increment ptr ctx
  | some 1 => decrement ptr ctx
  | _ => set ptr (if b then 1 else 0) ctx

/-- `Context::print`. -/
def print (ptr : Int) (ctx : Ctx) : Option Ctx :=
  some (emitOp (seek ptr ctx) '.')

/-- `Context::read`. -/
def read (ptr : Int) (ctx : Ctx) : Option Ctx :=
  some (emitOp (forget ptr (seek ptr ctx)) ',')

/-- `Context::while_not_zero`: seek, open the loop, forget all known
values, run the body, seek back, close the loop. -/
def whileNotZero (ptr : Int) (f : Ctx → Option Ctx) (ctx : Ctx) : Option Ctx :=
  let c := forgetAll (emitOp (seek ptr ctx) '[')
  (f c).map fun c2 => emitOp (seek ptr c2) ']'

/-- `Context::while_true`. -/
def whileTrue (ptr : Int) (f : Ctx → Option Ctx) (ctx : Ctx) : Option Ctx :=
  whileNotZero ptr f ctx

/-- `Context::repeat_reverse_destructive`. -/
def repeatReverseDestructive (counter : Int) (f : Int → Ctx → Option Ctx)
    (ctx : Ctx) : Option Ctx :=
  whileNotZero counter (fun c => (f counter c).bind (decrement counter)) ctx

/-- `Context::mov`. -/
def mov (source target : Int) (ctx : Ctx) : Option Ctx :=
  if source = target then some ctx
  else
    (clear target ctx).bind
      (whileNotZero source fun c => (increment target c).bind (decrement source))

/-- `Context::copy`. -/
def copy (source target : Int) (ctx : Ctx) : Option Ctx :=
  if source = target then some ctx
  else
    withStackAlloc (fun tmp c =>
      (clear target c).bind (mov source tmp) |>.bind
        (repeatReverseDestructive tmp fun _ c2 =>
          (increment source c2).bind (increment target))) ctx

/-- `Context::repeat_reverse`. -/
def repeatReverse (ptr : Int) (f : Int → Ctx → Option Ctx) (ctx : Ctx) : Option Ctx :=
  withStackAlloc (fun counter c =>
    (copy ptr counter c).bind (repeatReverseDestructive counter f)) ctx

/-- `Context::iff`. -/
def iff (cond : Int) (f : Ctx → Option Ctx) (ctx : Ctx) : Option Ctx :=
  repeatReverse cond (fun _ c => f c) ctx

/-- `Context::iff_destructive`. -/
def iffDestructive (cond : Int) (f : Ctx → Option Ctx) (ctx : Ctx) : Option Ctx :=
  repeatReverseDestructive cond (fun _ c => f c) ctx

/-- `Context::not`. -/
def notOp (cond : Int) (ctx : Ctx) : Option Ctx :=
  withStackAlloc (fun isFalse c =>
    (set isFalse 1 c).bind
      (repeatReverseDestructive cond fun _ c2 => decrement isFalse c2) |>.bind
      (repeatReverseDestructive isFalse fun _ c2 => increment cond c2)) ctx

/-- `Context::if_not`. -/
def ifNot (cond : Int) (f : Ctx → Option Ctx) (ctx : Ctx) : Option Ctx :=
  withStackAlloc (fun notCond c =>
    (copy cond notCond c).bind (notOp notCond) |>.bind (iffDestructive notCond f)) ctx

/-- `Context::if_not_destructive`. -/
def ifNotDestructive (cond : Int) (f : Ctx → Option Ctx) (ctx : Ctx) : Option Ctx :=
  (notOp cond ctx).bind (iffDestructive cond f)

/-- `Context::if_else`. -/
def ifElse (cond : Int) (f g : Ctx → Option Ctx) (ctx : Ctx) : Option Ctx :=
  withStackAlloc (fun tmpCond c =>
    (copy cond tmpCond c).bind (iff cond f) |>.bind (ifNotDestructive tmpCond g)) ctx

/-- `Context::add`: `assert_ne!(source, target)` panics when the addresses
coincide. -/
def add (target source : Int) (ctx : Ctx) : Option Ctx :=
  if source = target then none
  else repeatReverseDestructive source (fun _ c => increment target c) ctx

/-- `Context::sub`. -/
def sub (target source : Int) (ctx : Ctx) : Option Ctx :=
  if source = target then none
  else repeatReverseDestructive source (fun _ c => decrement target c) ctx

/-- `Context::mul`. -/
def mul (target source : Int) (ctx : Ctx) : Option Ctx :=
  if source = target then none
  else
    withStackAlloc2 (fun product tmp c =>
      (clear product c).bind
        (repeatReverseDestructive target fun _ c2 =>
          (copy source tmp c2).bind (add product tmp)) |>.bind
        (mov product target)) ctx

/-- `Context::is_zero_destructive`. -/
def isZeroDestructive (v : Int) (ctx : Ctx) : Option Ctx :=
  withStackAlloc (fun isZero c =>
    (setBool isZero true c).bind
      (whileNotZero v fun c2 =>
        (setBool isZero false (assumeBool isZero true c2)).bind (setBool v false)) |>.bind
      (iffDestructive isZero fun c2 =>
        setBool v true (assumeBool v false c2))) ctx

/-- `Context::is_zero`. -/
def isZero (source target : Int) (ctx : Ctx) : Option Ctx :=
  (copy source target ctx).bind (isZeroDestructive target)

/-- `Context::is_not_zero_destructive`. -/
def isNotZeroDestructive (v : Int) (ctx : Ctx) : Option Ctx :=
  (isZeroDestructive v ctx).bind (notOp v)

/-- `Context::is_not_zero`. -/
def isNotZero (source target : Int) (ctx : Ctx) : Option Ctx :=
  (isZero source target ctx).bind (notOp target)

/-- `Context::equals_assign`. -/
def equalsAssign (source target : Int) (ctx : Ctx) : Option Ctx :=
  withStackAlloc (fun tmp c =>
    (copy source tmp c).bind
      (repeatReverseDestructive tmp fun _ c2 => decrement target c2) |>.bind
      (isZeroDestructive target)) ctx

/-- `Context::equals`. -/
def equals (a b target : Int) (ctx : Ctx) : Option Ctx :=
  (copy b target ctx).bind (equalsAssign a target)

/-- `Context::not_equals_assign`. -/
def notEqualsAssign (source target : Int) (ctx : Ctx) : Option Ctx :=
  (equalsAssign source target ctx).bind (notOp target)

/-- `Context::and_assign`. -/
def andAssign (source target : Int) (ctx : Ctx) : Option Ctx :=
  withStackAlloc (fun tmp c =>
    (mov target tmp c).bind
      (iff source fun c2 =>
        iffDestructive tmp (fun c3 => incrementBy target 1 c3) c2)) ctx

/-- `Context::and`. -/
def andOp (a b target : Int) (ctx : Ctx) : Option Ctx :=
  if a = target then none
  else if b = target then none
  else (copy b target ctx).bind (andAssign a target)

/-- `Context::or_assign`. -/
def orAssign (source target : Int) (ctx : Ctx) : Option Ctx :=
  withStackAlloc (fun tmp c =>
    (mov target tmp c).bind
      (iff source fun c2 => setBool target true (assumeBool target false c2)) |>.bind
      (iffDestructive tmp fun c2 => setBool target true c2)) ctx

/-- `Context::or`. -/
def orOp (a b target : Int) (ctx : Ctx) : Option Ctx :=
  if a = target then none
  else if b = target then none
  else (copy b target ctx).bind (orAssign a target)

/-- `Context::nor_assign`. -/
def norAssign (source target : Int) (ctx : Ctx) : Option Ctx :=
  (orAssign source target ctx).bind (notOp target)

/-- `Context::nor`. -/
def nor (a b target : Int) (ctx : Ctx) : Option Ctx :=
  if a = target then none
  else if b = target then none
  else (copy b target ctx).bind (norAssign a target)

/-- `Context::and_not`. -/
def andNot (a b target : Int) (ctx : Ctx) : Option Ctx :=
  (copy b target ctx).bind (notOp target) |>.bind (andAssign a target)

/-- `Context::xor_assign`. -/
def xorAssign (source target : Int) (ctx : Ctx) : Option Ctx :=
  equalsAssign source target ctx

/-- `Context::xor`. -/
def xorOp (a b target : Int) (ctx : Ctx) : Option Ctx :=
  if a = target then none
  else if b = target then none
  else (copy b target ctx).bind (xorAssign a target)

/-- `Context::greater_than_assign`: const-fold when both values are known
(via `set_bool`); otherwise the four-scratch-cell loop. -/
def greaterThanAssign (source target : Int) (ctx : Ctx) : Option Ctx :=
  match value source ctx, value target ctx with
  | some sv, some tv => setBool target (decide (tv < sv)) ctx
  | _, _ =>
    withStackAlloc4 (fun tmp tmpIsZero targetIsZero neitherIsZero c =>
      (copy source tmp c).bind (isZero tmp tmpIsZero) |>.bind
        (isZero target targetIsZero) |>.bind
        (nor tmpIsZero targetIsZero neitherIsZero) |>.bind
        (whileTrue neitherIsZero fun c2 =>
          (decrement tmp c2).bind (decrement target) |>.bind
            (isZero tmp tmpIsZero) |>.bind
            (isZero target targetIsZero) |>.bind
            (nor tmpIsZero targetIsZero neitherIsZero)) |>.bind
        (andNot targetIsZero tmpIsZero target)) ctx

/-- `Context::greater_than`: const-fold when both operands are known;
otherwise copy `b` into the target and run `greater_than_assign`. -/
def greaterThan (a b target : Int) (ctx : Ctx) : Option Ctx :=
  match value a ctx, value b ctx with
  | some av, some bv => setBool target (decide (bv < av)) ctx
  | _, _ => (copy b target ctx).bind (greaterThanAssign a target)

end Brainfeed

namespace Ir

/-- Identifiers of the source language (src/ir.rs, `Ident`). -/
structure Ident where
  name : String
deriving DecidableEq

/-- Expressions of the source language (src/ir.rs, `Expr`); `u8` constants
are modelled as `Nat` below 256, `Char` constants parse to `Const` in the
source already. -/
inductive Expr
  | const (v : Nat)
  | var (name : Ident)
  | add (a b : Expr)
  | sub (a b : Expr)
  | gt (a b : Expr)
deriving DecidableEq

/-- Statements of the source language (src/ir.rs, `Statement`): the enum
has five variants, among them `AddAssign`. -/
inductive Statement
  | decl (name : Ident) (value : Option Expr)
  | assign (name : Ident) (value : Expr)
  | addAssign (name : Ident) (value : Expr)
  | whileS (cond : Expr) (body : List Statement)
  | ifS (cond : Expr) (body : List Statement)

/-- The arms present in the `match stmt` of `Trans::trans_stmt`
(src/trans.rs, lines 33-50). -/
inductive TransArm
  | declArm
  | assignArm
  | whileArm
  | ifArm
deriving DecidableEq

/-- Which arm of `Trans::trans_stmt`'s match handles a statement.  The
source match has arms for `Decl`, `Assign`, `While` and `If` only;
`Statement::AddAssign` has no arm, so the match is non-exhaustive and the
module does not compile — no lowering of `AddAssign` exists in the code.
`none` records that absence. -/
def transStmtArm : Statement → Option TransArm
  | .decl _ _ => some .declArm
  | .assign _ _ => some .assignArm
  | .addAssign _ _ => none
  | .whileS _ _ => some .whileArm
  | .ifS _ _ => some .ifArm

end Ir

namespace Brainfeed

/-! Allocator lemmas (claim C6). -/

theorem firstFree_none_all_live : ∀ (sp : List Bool), firstFree sp = none →
    ∀ i, i < sp.length → sp.get? i = some true := by
  intro sp
  induction sp with
  | nil => intro _ i hi; simp at hi
  | cons b rest ih =>
    intro h i hi
    cases b with
    | false => simp [firstFree] at h
    | true =>
      simp only [firstFree, if_true] at h
      have hrest : firstFree rest = none := by
        cases hf : firstFree rest with
        | none => rfl
        | some a => rw [hf] at h; simp at h
      cases i with
      | zero => rfl
      | succ i =>
        simp only [List.length_cons, Nat.succ_lt_succ_iff] at hi
        exact ih hrest i hi

theorem firstFree_some_spec : ∀ (sp : List Bool) (a : Nat), firstFree sp = some a →
    sp.get? a = some false ∧ ∀ i, i < a → sp.get? i = some true := by
  intro sp
  induction sp with
  | nil => intro a h; simp [firstFree] at h
  | cons b rest ih =>
    intro a h
    cases b with
    | false =>
      simp only [firstFree, if_false] at h
      have ha : a = 0 := by
        cases h; rfl
      subst ha
      exact ⟨rfl, by intro i hi; omega⟩
    | true =>
      simp only [firstFree, if_true] at h
      cases hf : firstFree rest with
      | none => rw [hf] at h; simp at h
      | some a2 =>
        rw [hf] at h
        simp only [Option.map_some'] at h
        have ha : a = a2 + 1 := by
          cases h; rfl
        subst ha
        rcases ih a2 hf with ⟨h1, h2⟩
        refine ⟨h1, ?_⟩
        intro i hi
        cases i with
        | zero => rfl
        | succ i =>
          exact h2 i (by omega)

theorem firstFree_release : ∀ (sp : List Bool) (A : Nat), A < sp.length →
    (∀ i, i < A → sp.get? i = some true) →
    firstFree (release sp A) = some A := by
  intro sp
  induction sp with
  | nil => intro A hA; simp at hA
  | cons b rest ih =>
    intro A hA hlive
    cases A with
    | zero => simp [release, List.set, firstFree]
    | succ A =>
      have hb : b = true := by
        have := hlive 0 (by omega)
        simpa using this
      subst hb
      have hrest : firstFree (release rest A) = some A := by
        refine ih A (by simpa using hA) ?_
        intro i hi
        exact hlive (i + 1) (by omega)
      simp only [release, List.set, firstFree, if_true] at hrest ⊢
      rw [hrest]
      rfl

/-! Helper lemmas about emission of byte sequences (used by claims C9 and
C10). -/

theorem foldl_emitOp_code : ∀ (cs : List Char) (ctx : Ctx),
    (cs.foldl emitOp ctx).code = ctx.code ++ cs := by
  intro cs
  induction cs with
  | nil => intro ctx; simp
  | cons c rest ih =>
    intro ctx
    simp only [List.foldl_cons, ih, emitOp, List.append_assoc, List.singleton_append]

theorem foldl_emitOp_addr : ∀ (cs : List Char) (ctx : Ctx),
    (cs.foldl emitOp ctx).addr = ctx.addr := by
  intro cs
  induction cs with
  | nil => intro ctx; rfl
  | cons c rest ih => intro ctx; simp only [List.foldl_cons, ih, emitOp]

theorem foldl_emitOp_knownValues : ∀ (cs : List Char) (ctx : Ctx),
    (cs.foldl emitOp ctx).knownValues = ctx.knownValues := by
  intro cs
  induction cs with
  | nil => intro ctx; rfl
  | cons c rest ih => intro ctx; simp only [List.foldl_cons, ih, emitOp]

theorem foldl_emitOp_stackPointers : ∀ (cs : List Char) (ctx : Ctx),
    (cs.foldl emitOp ctx).stackPointers = ctx.stackPointers := by
  intro cs
  induction cs with
  | nil => intro ctx; rfl
  | cons c rest ih => intro ctx; simp only [List.foldl_cons, ih, emitOp]

/-- On a context whose shadow is exactly the singleton `[some v]`,
`map_known_value` at address 0 applies the closure to `v`. -/
theorem mapKnownValue_single (f : Nat → Option Nat) (ctx : Ctx) (v : Nat)
    (h : ctx.knownValues = [some v]) :
    mapKnownValue 0 f ctx =
      (f v).map fun v2 => { ctx with knownValues := [some v2] } := by
  unfold mapKnownValue
  rw [if_neg (by decide)]
  rw [h]
  rfl

theorem value_single (ctx : Ctx) (v : Nat) (h : ctx.knownValues = [some v]) :
    value 0 ctx = some v := by
  unfold value
  rw [if_neg (by decide)]
  rw [h]
  rfl

/-! Behaviour of the single-cell increment/decrement primitives on a cell
whose value is known (claim C9). -/

theorem increment_known_ok (v : Nat) (h : v < 255) :
    (increment 0 (assume 0 v fresh)).map (fun c => (c.code, value 0 c)) =
      some (['+'], some (v + 1)) := by
  unfold increment
  rw [mapKnownValue_single _ _ v rfl]
  have h1 : chkAdd v 1 = some (v + 1) := by unfold chkAdd; rw [if_pos (by omega)]
  rw [h1]
  rfl

theorem increment_known_overflow (v : Nat) (h : 255 ≤ v) :
    increment 0 (assume 0 v fresh) = none := by
  unfold increment
  rw [mapKnownValue_single _ _ v rfl]
  have h1 : chkAdd v 1 = none := by unfold chkAdd; rw [if_neg (by omega)]
  rw [h1]
  rfl

theorem decrement_known_ok (v : Nat) (h : 0 < v) :
    (decrement 0 (assume 0 v fresh)).map (fun c => (c.code, value 0 c)) =
      some (['-'], some (v - 1)) := by
  unfold decrement
  rw [mapKnownValue_single _ _ v rfl]
  have h1 : chkSub v 1 = some (v - 1) := by unfold chkSub; rw [if_pos (by omega)]
  rw [h1]
  rfl

theorem decrement_known_underflow :
    decrement 0 (assume 0 0 fresh) = none := by
  decide

theorem incrementBy_known_ok (v n : Nat) (h : v + n ≤ 255) :
    (incrementBy 0 n (assume 0 v fresh)).map (fun c => (c.code, value 0 c)) =
      some (List.replicate n '+', some (v + n)) := by
  unfold incrementBy
  have hkv : ((List.replicate n '+').foldl emitOp
      (seek 0 (assume 0 v fresh))).knownValues = [some v] :=
    foldl_emitOp_knownValues _ _
  rw [mapKnownValue_single _ _ v hkv]
  have h1 : chkAdd v n = some (v + n) := by unfold chkAdd; rw [if_pos h]
  rw [h1]
  simp only [Option.map_some']
  refine congrArg some ?_
  refine Prod.ext ?_ ?_
  · simpa using foldl_emitOp_code (List.replicate n '+') (seek 0 (assume 0 v fresh))
  · simp [value]

theorem incrementBy_known_overflow (v n : Nat) (h : 255 < v + n) :
    incrementBy 0 n (assume 0 v fresh) = none := by
  unfold incrementBy
  have hkv : ((List.replicate n '+').foldl emitOp
      (seek 0 (assume 0 v fresh))).knownValues = [some v] :=
    foldl_emitOp_knownValues _ _
  rw [mapKnownValue_single _ _ v hkv]
  have h1 : chkAdd v n = none := by unfold chkAdd; rw [if_neg (by omega)]
  rw [h1]
  rfl

theorem decrementBy_known_ok (v n : Nat) (h : n ≤ v) :
    (decrementBy 0 n (assume 0 v fresh)).map (fun c => (c.code, value 0 c)) =
      some (List.replicate n '-', some (v - n)) := by
  unfold decrementBy
  have hkv : ((List.replicate n '-').foldl emitOp
      (seek 0 (assume 0 v fresh))).knownValues = [some v] :=
    foldl_emitOp_knownValues _ _
  rw [mapKnownValue_single _ _ v hkv]
  have h1 : chkSub v n = some (v - n) := by unfold chkSub; rw [if_pos h]
  rw [h1]
  simp only [Option.map_some']
  refine congrArg some ?_
  refine Prod.ext ?_ ?_
  · simpa using foldl_emitOp_code (List.replicate n '-') (seek 0 (assume 0 v fresh))
  · simp [value]

theorem decrementBy_known_underflow (v n : Nat) (h : v < n) :
    decrementBy 0 n (assume 0 v fresh) = none := by
  unfold decrementBy
  have hkv : ((List.replicate n '-').foldl emitOp
      (seek 0 (assume 0 v fresh))).knownValues = [some v] :=
    foldl_emitOp_knownValues _ _
  rw [mapKnownValue_single _ _ v hkv]
  have h1 : chkSub v n = none := by unfold chkSub; rw [if_neg (by omega)]
  rw [h1]
  rfl

end Brainfeed

/-- C9 counterexample: on a cell whose known value is 255, `increment`
does not update the shadow to (255+1) mod 256 = 0 — the update `v + 1` is
checked `u8` arithmetic (unlike the VM cells, which wrap), so the call
panics. -/
theorem claim_C9_increment_at_255_panics :
    Brainfeed.increment 0 (Brainfeed.assume 0 255 Brainfeed.fresh) = none := by
  decide

/-- C9 (amended): on a cell with known value v, `increment` emits a single
`+` and updates the shadow to v+1 when v < 255, and likewise `decrement`
(v−1 for v > 0) and `increment_by`/`decrement_by` (v±n emitting n bytes,
when the result stays within u8); but at the wrap-around boundary the
shadow update uses checked arithmetic and panics instead of reducing
mod 256. -/
theorem claim_C9_known_value_updates :
    (∀ v : Nat, v < 255 →
      (Brainfeed.increment 0 (Brainfeed.assume 0 v Brainfeed.fresh)).map
        (fun c => (c.code, Brainfeed.value 0 c)) = some (['+'], some (v + 1))) ∧
    (∀ v : Nat, 255 ≤ v → Brainfeed.increment 0 (Brainfeed.assume 0 v Brainfeed.fresh) = none) ∧
    (∀ v : Nat, 0 < v →
      (Brainfeed.decrement 0 (Brainfeed.assume 0 v Brainfeed.fresh)).map
        (fun c => (c.code, Brainfeed.value 0 c)) = some (['-'], some (v - 1))) ∧
    Brainfeed.decrement 0 (Brainfeed.assume 0 0 Brainfeed.fresh) = none ∧
    (∀ v n : Nat, v + n ≤ 255 →
      (Brainfeed.incrementBy 0 n (Brainfeed.assume 0 v Brainfeed.fresh)).map
        (fun c => (c.code, Brainfeed.value 0 c)) = some (List.replicate n '+', some (v + n))) ∧
    (∀ v n : Nat, 255 < v + n →
      Brainfeed.incrementBy 0 n (Brainfeed.assume 0 v Brainfeed.fresh) = none) ∧
    (∀ v n : Nat, n ≤ v →
      (Brainfeed.decrementBy 0 n (Brainfeed.assume 0 v Brainfeed.fresh)).map
        (fun c => (c.code, Brainfeed.value 0 c)) = some (List.replicate n '-', some (v - n))) ∧
    (∀ v n : Nat, v < n →
      Brainfeed.decrementBy 0 n (Brainfeed.assume 0 v Brainfeed.fresh) = none) :=
  ⟨Brainfeed.increment_known_ok, Brainfeed.increment_known_overflow,
    Brainfeed.decrement_known_ok, Brainfeed.decrement_known_underflow,
    Brainfeed.incrementBy_known_ok, Brainfeed.incrementBy_known_overflow,
    Brainfeed.decrementBy_known_ok, Brainfeed.decrementBy_known_underflow⟩

/-- C9 witness: the amended statement instantiated at concrete known
values and amounts. -/
theorem claim_C9_known_value_updates_witness :
    ((Brainfeed.increment 0 (Brainfeed.assume 0 7 Brainfeed.fresh)).map
      (fun c => (c.code, Brainfeed.value 0 c)) = some (['+'], some 8)) ∧
    (Brainfeed.increment 0 (Brainfeed.assume 0 255 Brainfeed.fresh) = none) ∧
    ((Brainfeed.decrement 0 (Brainfeed.assume 0 7 Brainfeed.fresh)).map
      (fun c => (c.code, Brainfeed.value 0 c)) = some (['-'], some 6)) ∧
    ((Brainfeed.incrementBy 0 3 (Brainfeed.assume 0 7 Brainfeed.fresh)).map
      (fun c => (c.code, Brainfeed.value 0 c)) = some (List.replicate 3 '+', some 10)) ∧
    (Brainfeed.incrementBy 0 100 (Brainfeed.assume 0 200 Brainfeed.fresh) = none) ∧
    ((Brainfeed.decrementBy 0 3 (Brainfeed.assume 0 7 Brainfeed.fresh)).map
      (fun c => (c.code, Brainfeed.value 0 c)) = some (List.replicate 3 '-', some 4)) ∧
    (Brainfeed.decrementBy 0 9 (Brainfeed.assume 0 7 Brainfeed.fresh) = none) :=
  ⟨claim_C9_known_value_updates.1 7 (by decide),
    claim_C9_known_value_updates.2.1 255 (by decide),
    claim_C9_known_value_updates.2.2.1 7 (by decide),
    claim_C9_known_value_updates.2.2.2.2.1 7 3 (by decide),
    claim_C9_known_value_updates.2.2.2.2.2.1 200 100 (by decide),
    claim_C9_known_value_updates.2.2.2.2.2.2.1 7 3 (by decide),
    claim_C9_known_value_updates.2.2.2.2.2.2.2 7 9 (by decide)⟩

/-- C6: the allocator always returns the lowest free address: every slot
below the returned address is live, a reused slot was free and is marked
live, a new slot is appended only when every slot is live; and after
releasing the handle at address A, if no lower address is free the next
allocation returns A again. -/
theorem claim_C6_stack_alloc_lowest_free :
    (∀ (sp : List Bool) (a : Nat) (sp2 : List Bool), Brainfeed.stackAlloc sp = (a, sp2) →
      (∀ i, i < a → sp.get? i = some true) ∧
      (a < sp.length → sp.get? a = some false ∧ sp2 = sp.set a true) ∧
      (¬ a < sp.length → a = sp.length ∧ sp2 = sp ++ [true])) ∧
    (∀ (sp : List Bool) (A : Nat), A < sp.length →
      (∀ i, i < A → sp.get? i = some true) →
      (Brainfeed.stackAlloc (Brainfeed.release sp A)).1 = A) := by
  constructor
  · intro sp a sp2 h
    unfold Brainfeed.stackAlloc at h
    cases hf : Brainfeed.firstFree sp with
    | none =>
      rw [hf] at h
      simp only [Prod.mk.injEq] at h
      rcases h with ⟨ha, hsp2⟩
      subst ha; subst hsp2
      refine ⟨?_, ?_, ?_⟩
      · intro i hi
        exact Brainfeed.firstFree_none_all_live sp hf i hi
      · intro hlt; omega
      · intro _; exact ⟨rfl, rfl⟩
    | some a0 =>
      rw [hf] at h
      simp only [Prod.mk.injEq] at h
      rcases h with ⟨ha, hsp2⟩
      subst ha; subst hsp2
      rcases Brainfeed.firstFree_some_spec sp a0 hf with ⟨h1, h2⟩
      have halt : a0 < sp.length := by
        by_contra hge
        have : sp.get? a0 = none := by
          exact List.get?_eq_none.mpr (by omega)
        rw [this] at h1; exact Option.noConfusion h1
      exact ⟨h2, fun _ => ⟨h1, rfl⟩, fun hc => absurd halt hc⟩
  · intro sp A hA hlive
    unfold Brainfeed.stackAlloc
    rw [Brainfeed.firstFree_release sp A hA hlive]

/-- C6 witness: on the slot list [live, free, live] allocation returns
address 1; after releasing address 0 of [live, live], allocation returns 0. -/
theorem claim_C6_stack_alloc_lowest_free_witness :
    ((∀ i, i < 1 → [true, false, true].get? i = some true) ∧
      (1 < [true, false, true].length →
        [true, false, true].get? 1 = some false ∧
        [true, true, true] = [true, false, true].set 1 true) ∧
      (¬ 1 < [true, false, true].length →
        1 = [true, false, true].length ∧ [true, true, true] = [true, false, true] ++ [true])) ∧
    (Brainfeed.stackAlloc (Brainfeed.release [true, true] 0)).1 = 0 := by
  constructor
  · exact claim_C6_stack_alloc_lowest_free.1 [true, false, true] 1 [true, true, true] (by decide)
  · exact claim_C6_stack_alloc_lowest_free.2 [true, true] 0 (by decide) (by decide)

/-- C1: the known-value shadow is not sound across loops.  From a fresh
context, `while_not_zero(cell 0, set(cell 1, 5))` emits `[>[-]+++++<]` and
leaves `known_values[1] = Some(5)`, but executing that stream on the
reference VM from a fresh tape skips the loop (cell 0 is 0) and leaves
cell 1 equal to 0, contradicting the invariant that a `Some` entry matches
the machine cell. -/
theorem claim_C1_shadow_unsound_after_loop :
    (Brainfeed.whileNotZero 0 (Brainfeed.set 1 5) Brainfeed.fresh).map Brainfeed.Ctx.code =
      some "[>[-]+++++<]".data ∧
    (Brainfeed.whileNotZero 0 (Brainfeed.set 1 5) Brainfeed.fresh).map (Brainfeed.value 1) =
      some (some 5) ∧
    Minibf.memAt
      (Minibf.run "[>[-]+++++<]".data Minibf.MAX_STEPS (Minibf.start Minibf.zeroMem)) 1 =
      some 0 := by
  refine ⟨by decide, by decide, by decide⟩

/-- C2: `set_bool` ignores the requested boolean when the known value is 0
or 1.  With known value 0 and `b = false`, `set_bool` emits a single `+`:
the emitted stream `[-]+` leaves the cell at 1 (and records known value 1),
while the claim requires the cell to hold 0. -/
theorem claim_C2_set_bool_ignores_bool :
    ((Brainfeed.set 0 0 Brainfeed.fresh).bind (Brainfeed.setBool 0 false)).map
      Brainfeed.Ctx.code = some "[-]+".data ∧
    ((Brainfeed.set 0 0 Brainfeed.fresh).bind (Brainfeed.setBool 0 false)).map
      (Brainfeed.value 0) = some (some 1) ∧
    Minibf.memAt (Minibf.run "[-]+".data Minibf.MAX_STEPS (Minibf.start Minibf.zeroMem)) 0 =
      some 1 := by
  refine ⟨by decide, by decide, by decide⟩

/-- C4: `greater_than` with both operands known const-folds through the
broken `set_bool`: after `set(a,1); set(b,2); set(tgt,0)`,
`greater_than(a,b,tgt)` emits `[-]+>[-]++>[-]+` whose execution leaves
`tgt = 1`, although `a > b` is false and the claim requires `tgt = 0`. -/
theorem claim_C4_greater_than_fold_wrong :
    ((Brainfeed.set 0 1 Brainfeed.fresh).bind (Brainfeed.set 1 2) |>.bind
        (Brainfeed.set 2 0) |>.bind (Brainfeed.greaterThan 0 1 2)).map
      Brainfeed.Ctx.code = some "[-]+>[-]++>[-]+".data ∧
    Minibf.memAt
      (Minibf.run "[-]+>[-]++>[-]+".data Minibf.MAX_STEPS (Minibf.start Minibf.zeroMem)) 2 =
      some 1 ∧
    ¬ (1 : Nat) > 2 := by
  refine ⟨by decide, by decide, by decide⟩

/-- C5: from a fresh context with cells at addresses 0 and 1, the sequence
`set(a,2); set(i,3); while_not_zero(i, increment(a))` emits exactly
`[-]++>[-]+++[<+>]`; the loop leaves the cursor on the loop cell (address
1, sought back before `]`) and all known values forgotten. -/
theorem claim_C5_loop_shape :
    ((Brainfeed.set 0 2 Brainfeed.fresh).bind (Brainfeed.set 1 3) |>.bind
        (Brainfeed.whileNotZero 1 (Brainfeed.increment 0))).map Brainfeed.Ctx.code =
      some "[-]++>[-]+++[<+>]".data ∧
    ((Brainfeed.set 0 2 Brainfeed.fresh).bind (Brainfeed.set 1 3) |>.bind
        (Brainfeed.whileNotZero 1 (Brainfeed.increment 0))).map Brainfeed.Ctx.addr =
      some 1 ∧
    ((Brainfeed.set 0 2 Brainfeed.fresh).bind (Brainfeed.set 1 3) |>.bind
        (Brainfeed.whileNotZero 1 (Brainfeed.increment 0))).map Brainfeed.Ctx.knownValues =
      some [none, none] := by
  refine ⟨by decide, by decide, by decide⟩

/-- C7: the lowering pass has no case for `AddAssign` at all: the match in
`Trans::trans_stmt` handles `Decl`, `Assign`, `While` and `If` but not
`Statement::AddAssign` (the match is non-exhaustive), so `x += e` is not
lowered to resolve/temp/add — it is not lowered at all. -/
theorem claim_C7_add_assign_unhandled :
    Ir.transStmtArm (Ir.Statement.addAssign ⟨"x"⟩ (Ir.Expr.const 1)) = none ∧
    Ir.transStmtArm (Ir.Statement.assign ⟨"x"⟩ (Ir.Expr.const 1)) = some Ir.TransArm.assignArm ∧
    Ir.transStmtArm (Ir.Statement.decl ⟨"x"⟩ none) = some Ir.TransArm.declArm ∧
    Ir.transStmtArm (Ir.Statement.whileS (Ir.Expr.const 1) []) = some Ir.TransArm.whileArm ∧
    Ir.transStmtArm (Ir.Statement.ifS (Ir.Expr.const 1) []) = some Ir.TransArm.ifArm :=
  ⟨rfl, rfl, rfl, rfl, rfl⟩

/-- C8 counterexample: the reference VM does not execute `.` and `,` — the
source marks both ops `unimplemented!`, so running either byte panics
instead of performing I/O. -/
theorem claim_C8_io_ops_panic :
    Minibf.run ".".data Minibf.MAX_STEPS (Minibf.start Minibf.zeroMem) = none ∧
    Minibf.run ",".data Minibf.MAX_STEPS (Minibf.start Minibf.zeroMem) = none :=
  ⟨rfl, rfl⟩

/-- C8 (amended): the reference VM executes `<` `>` `+` `-` `[` `]`
according to the tape-machine contract (wrap-around pointer motion,
wrap-around cell arithmetic, loop entry/skip on the cell under the
pointer, fatal unmatched `]`) and silently ignores every unrecognized
byte; but it panics (`unimplemented!`) on `.` and `,` instead of
executing them. -/
theorem claim_C8_vm_op_semantics :
    (∀ (code : List Char) (st : Minibf.VMSt), code.get? st.ip = some '<' →
      Minibf.step code st =
        some { st with dp := (st.dp + (Minibf.MEM_SIZE - 1)) % Minibf.MEM_SIZE,
                       ip := st.ip + 1 }) ∧
    (∀ (code : List Char) (st : Minibf.VMSt), code.get? st.ip = some '>' →
      Minibf.step code st =
        some { st with dp := (st.dp + 1) % Minibf.MEM_SIZE, ip := st.ip + 1 }) ∧
    (∀ (code : List Char) (st : Minibf.VMSt), code.get? st.ip = some '+' →
      Minibf.step code st =
        some { st with mem := Minibf.updMem st.mem st.dp ((st.mem st.dp + 1) % 256),
                       ip := st.ip + 1 }) ∧
    (∀ (code : List Char) (st : Minibf.VMSt), code.get? st.ip = some '-' →
      Minibf.step code st =
        some { st with mem := Minibf.updMem st.mem st.dp ((st.mem st.dp + 255) % 256),
                       ip := st.ip + 1 }) ∧
    (∀ (code : List Char) (st : Minibf.VMSt), code.get? st.ip = some '[' →
      st.mem st.dp ≠ 0 →
      Minibf.step code st = some { st with stk := st.ip :: st.stk, ip := st.ip + 1 }) ∧
    (∀ (code : List Char) (st : Minibf.VMSt), code.get? st.ip = some '[' →
      st.mem st.dp = 0 →
      Minibf.step code st =
        (Minibf.scanAux code code.length st.ip 1).map fun r => { st with ip := r }) ∧
    (∀ (code : List Char) (st : Minibf.VMSt) (j : Nat) (rest : List Nat),
      code.get? st.ip = some ']' → st.stk = j :: rest →
      Minibf.step code st = some { st with ip := j, stk := rest }) ∧
    (∀ (code : List Char) (st : Minibf.VMSt), code.get? st.ip = some ']' →
      st.stk = [] → Minibf.step code st = none) ∧
    (∀ (code : List Char) (st : Minibf.VMSt), code.get? st.ip = some '.' →
      Minibf.step code st = none) ∧
    (∀ (code : List Char) (st : Minibf.VMSt), code.get? st.ip = some ',' →
      Minibf.step code st = none) ∧
    (∀ (code : List Char) (st : Minibf.VMSt) (c : Char), code.get? st.ip = some c →
      c ∉ (['<', '>', '+', '-', '[', ']', '.', ','] : List Char) →
      Minibf.step code st = some { st with ip := st.ip + 1 }) := by
  refine ⟨?_, ?_, ?_, ?_, ?_, ?_, ?_, ?_, ?_, ?_, ?_⟩
  · intro code st h; unfold Minibf.step; rw [h]; rfl
  · intro code st h; unfold Minibf.step; rw [h]; rfl
  · intro code st h; unfold Minibf.step; rw [h]; rfl
  · intro code st h; unfold Minibf.step; rw [h]; rfl
  · intro code st h hne
    unfold Minibf.step; rw [h]
    simp only [reduceIte]
    rw [if_pos hne]; rfl
  · intro code st h hz
    unfold Minibf.step; rw [h]
    simp only [reduceIte]
    rw [if_neg (show ¬ st.mem st.dp ≠ 0 by simp [hz])]; rfl
  · intro code st j rest h hstk
    unfold Minibf.step; rw [h]
    simp only [reduceIte]
    rw [hstk]; rfl
  · intro code st h hstk
    unfold Minibf.step; rw [h]
    simp only [reduceIte]
    rw [hstk]; rfl
  · intro code st h; unfold Minibf.step; rw [h]; rfl
  · intro code st h; unfold Minibf.step; rw [h]; rfl
  · intro code st c h hc
    simp only [List.mem_cons, List.not_mem_nil, or_false, not_or] at hc
    obtain ⟨h1, h2, h3, h4, h5, h6, h7, h8⟩ := hc
    unfold Minibf.step; rw [h]
    simp only [if_neg h1, if_neg h2, if_neg h3, if_neg h4, if_neg h5, if_neg h6,
      if_neg h7, if_neg h8]

/-- C8 witness: the reference semantics instantiated at concrete states:
`<` from a fresh tape wraps the pointer to 29999, `+` sets cell 0 to 1, a
zero-cell `[` skips past its `]`, an unmatched `]` is fatal, `.` panics,
and an unrecognized byte is ignored. -/
theorem claim_C8_vm_op_semantics_witness :
    (Minibf.dpAt (Minibf.step "<".data (Minibf.start Minibf.zeroMem)) = some 29999) ∧
    (Minibf.memAt (Minibf.step "+".data (Minibf.start Minibf.zeroMem)) 0 = some 1) ∧
    ((Minibf.step "[]".data (Minibf.start Minibf.zeroMem)).map Minibf.VMSt.ip = some 2) ∧
    (Minibf.step "]".data (Minibf.start Minibf.zeroMem) = none) ∧
    (Minibf.step ".".data (Minibf.start Minibf.zeroMem) = none) ∧
    ((Minibf.step "a".data (Minibf.start Minibf.zeroMem)).map Minibf.VMSt.ip = some 1) := by
  refine ⟨?_, ?_, ?_, ?_, ?_, ?_⟩
  · rw [Minibf.dpAt, claim_C8_vm_op_semantics.1 "<".data (Minibf.start Minibf.zeroMem) rfl]
    rfl
  · rw [Minibf.memAt,
      claim_C8_vm_op_semantics.2.2.1 "+".data (Minibf.start Minibf.zeroMem) rfl]
    rfl
  · rw [claim_C8_vm_op_semantics.2.2.2.2.2.1 "[]".data (Minibf.start Minibf.zeroMem) rfl rfl]
    rfl
  · exact claim_C8_vm_op_semantics.2.2.2.2.2.2.2.1 "]".data (Minibf.start Minibf.zeroMem)
      rfl rfl
  · exact claim_C8_vm_op_semantics.2.2.2.2.2.2.2.2.1 ".".data (Minibf.start Minibf.zeroMem) rfl
  · rw [claim_C8_vm_op_semantics.2.2.2.2.2.2.2.2.2.2 "a".data (Minibf.start Minibf.zeroMem)
      'a' rfl (by decide)]
    rfl

namespace Brainfeed

/-- The byte block a seek between nonnegative addresses emits. -/
def mv (a b : Nat) : List Char :=
  if a ≤ b then List.replicate (b - a) '>' else List.replicate (a - b) '<'

/-- The byte stream `add(target, source)` emits from a fresh context with
the cells at addresses `T` and `S`. -/
def addCode (T S : Nat) : List Char :=
  List.replicate S '>' ++ ['['] ++ mv S T ++ ['+'] ++ mv T S ++ ['-', ']']

theorem mv_self (a : Nat) : mv a a = [] := by
  simp [mv]

theorem mv_zero (b : Nat) : mv 0 b = List.replicate b '>' := by
  simp [mv]

/-- `seek` between nonnegative addresses emits exactly `mv`. -/
theorem seek_nat (a b : Nat) (ctx : Ctx) (haddr : ctx.addr = (a : Int)) :
    seek (b : Int) ctx = { ctx with code := ctx.code ++ mv a b, addr := (b : Int) } := by
  have hrep : List.replicate ((b : Int) - ctx.addr).natAbs
      (if 0 < (b : Int) - ctx.addr then '>' else '<') = mv a b := by
    rw [haddr]
    rcases Nat.lt_trichotomy a b with h | h | h
    · rw [if_pos (by omega), mv, if_pos (by omega)]
      have : (((b : Nat) : Int) - ((a : Nat) : Int)).natAbs = b - a := by omega
      rw [this]
    · subst h
      simp [mv]
    · rw [if_neg (by omega), mv, if_neg (by omega)]
      have : (((b : Nat) : Int) - ((a : Nat) : Int)).natAbs = a - b := by omega
      rw [this]
  show { emitRaw ctx (List.replicate ((b : Int) - ctx.addr).natAbs
      (if 0 < (b : Int) - ctx.addr then '>' else '<')) with addr := (b : Int) } = _
  rw [hrep]
  rfl

/-- `map_known_value` is the identity on a context with an empty shadow. -/
theorem mapKnownValue_nil (p : Int) (f : Nat → Option Nat) (ctx : Ctx)
    (h : ctx.knownValues = []) : mapKnownValue p f ctx = some ctx := by
  unfold mapKnownValue
  by_cases hp : p < 0
  · rw [if_pos hp]
  · rw [if_neg hp, h]
    rfl

/-- The emission of `add(target, source)` from a fresh context: exactly
`addCode`, ending with the cursor on the source cell. -/
theorem add_emits (T S : Nat) (h : T ≠ S) :
    ∃ ctx2 : Ctx, add (T : Int) (S : Int) fresh = some ctx2 ∧
      ctx2.code = addCode T S ∧ ctx2.addr = (S : Int) := by
  have hc1 : seek (S : Int) fresh = { fresh with code := mv 0 S, addr := (S : Int) } := by
    have := seek_nat 0 S fresh rfl
    simpa using this
  unfold add
  rw [if_neg (by omega : ¬ ((S : Int) = (T : Int)))]
  unfold repeatReverseDestructive whileNotZero
  rw [hc1]
  set c2 : Ctx := forgetAll (emitOp { fresh with code := mv 0 S, addr := (S : Int) } '[') with hc2
  have hc2kv : c2.knownValues = [] := rfl
  have hc2addr : c2.addr = (S : Int) := rfl
  have hc2code : c2.code = mv 0 S ++ ['['] := rfl
  have hinc : increment (T : Int) c2 = some (emitOp (seek (T : Int) c2) '+') := by
    unfold increment
    exact mapKnownValue_nil _ _ _ rfl
  set c3 : Ctx := emitOp (seek (T : Int) c2) '+' with hc3
  have hc3code : c3.code = c2.code ++ mv S T ++ ['+'] := by
    rw [hc3, seek_nat S T c2 hc2addr]; rfl
  have hc3addr : c3.addr = (T : Int) := by
    rw [hc3, seek_nat S T c2 hc2addr]; rfl
  have hc3kv : c3.knownValues = [] := by
    rw [hc3, seek_nat S T c2 hc2addr]; exact hc2kv
  have hdec : decrement (S : Int) c3 = some (emitOp (seek (S : Int) c3) '-') := by
    unfold decrement
    exact mapKnownValue_nil _ _ _ hc3kv
  set c4 : Ctx := emitOp (seek (S : Int) c3) '-' with hc4
  have hc4code : c4.code = c3.code ++ mv T S ++ ['-'] := by
    rw [hc4, seek_nat T S c3 hc3addr]; rfl
  have hc4addr : c4.addr = (S : Int) := by
    rw [hc4, seek_nat T S c3 hc3addr]; rfl
  refine ⟨emitOp (seek (S : Int) c4) ']', ?_, ?_, ?_⟩
  · show (Option.bind (increment (T : Int) c2) (decrement (S : Int))).map
      (fun cB => emitOp (seek (S : Int) cB) ']') = _
    rw [hinc]
    show (decrement (S : Int) c3).map _ = _
    rw [hdec]
    rfl
  · show (emitOp (seek (S : Int) c4) ']').code = addCode T S
    rw [seek_nat S S c4 hc4addr]
    show c4.code ++ mv S S ++ [']'] = addCode T S
    rw [mv_self, hc4code, hc3code, hc2code]
    unfold addCode
    rw [mv_zero]
    simp [List.append_assoc]
  · rw [seek_nat S S c4 hc4addr]
    rfl

end Brainfeed

/-! VM execution of the emitted add code (claim C3). -/

theorem addCode_norm_lt (T S : Nat) (h : T < S) :
    Brainfeed.addCode T S =
      List.replicate S '>' ++ ('[' :: (List.replicate (S - T) '<' ++
        ('+' :: (List.replicate (S - T) '>' ++ ['-', ']'])))) := by
  unfold Brainfeed.addCode Brainfeed.mv
  rw [if_neg (by omega), if_pos (by omega)]
  simp [List.append_assoc]

theorem addCode_norm_gt (T S : Nat) (h : S < T) :
    Brainfeed.addCode T S =
      List.replicate S '>' ++ ('[' :: (List.replicate (T - S) '>' ++
        ('+' :: (List.replicate (T - S) '<' ++ ['-', ']'])))) := by
  unfold Brainfeed.addCode Brainfeed.mv
  rw [if_pos (by omega), if_neg (by omega)]
  simp [List.append_assoc]

theorem bodyList_facts (d : Nat) (cA cB : Char) :
    (∀ k, k < d → (List.replicate d cA ++ ('+' :: (List.replicate d cB ++ ['-', ']']))).get? k
      = some cA) ∧
    (List.replicate d cA ++ ('+' :: (List.replicate d cB ++ ['-', ']']))).get? d = some '+' ∧
    (∀ k, k < d → (List.replicate d cA ++ ('+' :: (List.replicate d cB ++ ['-', ']']))).get?
      (d + 1 + k) = some cB) ∧
    (List.replicate d cA ++ ('+' :: (List.replicate d cB ++ ['-', ']']))).get? (2 * d + 1)
      = some '-' ∧
    (List.replicate d cA ++ ('+' :: (List.replicate d cB ++ ['-', ']']))).get? (2 * d + 2)
      = some ']' ∧
    (List.replicate d cA ++ ('+' :: (List.replicate d cB ++ ['-', ']']))).length = 2 * d + 3 := by
  refine ⟨?_, ?_, ?_, ?_, ?_, ?_⟩
  · intro k hk
    rw [List.get?_append (by simpa using hk)]
    exact Minibf.replicate_get? d k cA hk
  · rw [List.get?_append_right (by simp)]
    simp
  · intro k hk
    rw [List.get?_append_right (by simp; omega)]
    rw [show d + 1 + k - (List.replicate d cA).length = k + 1 by simp; omega]
    rw [List.get?_cons_succ]
    rw [List.get?_append (by simpa using hk)]
    exact Minibf.replicate_get? d k cB hk
  · rw [List.get?_append_right (by simp; omega)]
    rw [show 2 * d + 1 - (List.replicate d cA).length = d + 1 by simp; omega]
    rw [List.get?_cons_succ]
    rw [List.get?_append_right (by simp)]
    rw [show d - (List.replicate d cB).length = 0 by simp]
    rfl
  · rw [List.get?_append_right (by simp; omega)]
    rw [show 2 * d + 2 - (List.replicate d cA).length = d + 2 by simp; omega]
    rw [List.get?_cons_succ]
    rw [List.get?_append_right (by simp)]
    rw [show d + 1 - (List.replicate d cB).length = 1 by simp]
    rfl
  · simp
    omega

/-! Step corollaries phrased on explicit states, so that rewriting keeps
machine states in constructor form. -/

theorem run1_lefts (code : List Char) (d f : Nat) (mem : Nat → Nat) (dp : Nat)
    (stk : List Nat) (ip : Nat)
    (hseg : ∀ k, k < d → code.get? (ip + k) = some '<')
    (hd : d ≤ dp) (hdp : dp < Minibf.MEM_SIZE) :
    Minibf.run code (d + f) ⟨mem, dp, stk, ip⟩ =
      Minibf.run code f ⟨mem, dp - d, stk, ip + d⟩ :=
  Minibf.run_lefts code d f ⟨mem, dp, stk, ip⟩ hseg hd hdp

theorem run1_rights (code : List Char) (d f : Nat) (mem : Nat → Nat) (dp : Nat)
    (stk : List Nat) (ip : Nat)
    (hseg : ∀ k, k < d → code.get? (ip + k) = some '>')
    (hdp : dp + d < Minibf.MEM_SIZE) :
    Minibf.run code (d + f) ⟨mem, dp, stk, ip⟩ =
      Minibf.run code f ⟨mem, dp + d, stk, ip + d⟩ :=
  Minibf.run_rights code d f ⟨mem, dp, stk, ip⟩ hseg hdp

theorem run1_plus (code : List Char) (f : Nat) (mem : Nat → Nat) (dp : Nat)
    (stk : List Nat) (ip : Nat)
    (hip : ip < code.length) (h : code.get? ip = some '+') :
    Minibf.run code (f + 1) ⟨mem, dp, stk, ip⟩ =
      Minibf.run code f ⟨Minibf.updMem mem dp ((mem dp + 1) % 256), dp, stk, ip + 1⟩ :=
  Minibf.run_succ_of_step code f _ _ hip (Minibf.step_plus_at code ⟨mem, dp, stk, ip⟩ h)

theorem run1_minus (code : List Char) (f : Nat) (mem : Nat → Nat) (dp : Nat)
    (stk : List Nat) (ip : Nat)
    (hip : ip < code.length) (h : code.get? ip = some '-') :
    Minibf.run code (f + 1) ⟨mem, dp, stk, ip⟩ =
      Minibf.run code f ⟨Minibf.updMem mem dp ((mem dp + 255) % 256), dp, stk, ip + 1⟩ :=
  Minibf.run_succ_of_step code f _ _ hip (Minibf.step_minus_at code ⟨mem, dp, stk, ip⟩ h)

theorem run1_lbrack_enter (code : List Char) (f : Nat) (mem : Nat → Nat) (dp : Nat)
    (stk : List Nat) (ip : Nat)
    (hip : ip < code.length) (h : code.get? ip = some '[') (hne : mem dp ≠ 0) :
    Minibf.run code (f + 1) ⟨mem, dp, stk, ip⟩ =
      Minibf.run code f ⟨mem, dp, ip :: stk, ip + 1⟩ :=
  Minibf.run_succ_of_step code f _ _ hip (Minibf.step_lbrack_enter code ⟨mem, dp, stk, ip⟩ h hne)

theorem run1_lbrack_skip (code : List Char) (f : Nat) (mem : Nat → Nat) (dp : Nat)
    (stk : List Nat) (ip r : Nat)
    (hip : ip < code.length) (h : code.get? ip = some '[') (hz : mem dp = 0)
    (hscan : Minibf.scanAux code code.length ip 1 = some r) :
    Minibf.run code (f + 1) ⟨mem, dp, stk, ip⟩ = Minibf.run code f ⟨mem, dp, stk, r⟩ := by
  refine Minibf.run_succ_of_step code f _ _ hip ?_
  rw [Minibf.step_lbrack_skip code ⟨mem, dp, stk, ip⟩ h hz]
  show (Minibf.scanAux code code.length ip 1).map _ = _
  rw [hscan]
  rfl

theorem run1_rbrack (code : List Char) (f : Nat) (mem : Nat → Nat) (dp j : Nat)
    (rest : List Nat) (ip : Nat)
    (hip : ip < code.length) (h : code.get? ip = some ']') :
    Minibf.run code (f + 1) ⟨mem, dp, j :: rest, ip⟩ =
      Minibf.run code f ⟨mem, dp, rest, j⟩ :=
  Minibf.run_succ_of_step code f _ _ hip
    (Minibf.step_rbrack_pop code ⟨mem, dp, j :: rest, ip⟩ j rest h rfl)

theorem add_body_lt (T S : Nat) (hTS : T < S) (hSM : S < Minibf.MEM_SIZE)
    (mem : Nat → Nat) (stk : List Nat) (f : Nat) :
    Minibf.run (Brainfeed.addCode T S) ((2 * (S - T) + 2) + f)
      ⟨mem, S, stk, S + 1⟩ =
    Minibf.run (Brainfeed.addCode T S) f
      ⟨Minibf.updMem (Minibf.updMem mem T ((mem T + 1) % 256)) S ((mem S + 255) % 256),
        S, stk, S + 3 + 2 * (S - T)⟩ := by
  obtain ⟨hLa, hLplus, hLb, hLminus, hLrb, hLlen⟩ := bodyList_facts (S - T) '<' '>'
  have hnorm := addCode_norm_lt T S hTS
  have hshift : ∀ j, (Brainfeed.addCode T S).get? (S + 1 + j) =
      (List.replicate (S - T) '<' ++ ('+' :: (List.replicate (S - T) '>' ++ ['-', ']']))).get? j := by
    intro j
    rw [hnorm, List.get?_append_right (by simp; omega)]
    rw [show S + 1 + j - (List.replicate S '>').length = j + 1 by simp; omega]
    rw [List.get?_cons_succ]
  have hlen : (Brainfeed.addCode T S).length = S + 2 * (S - T) + 4 := by
    rw [hnorm]
    simp only [List.length_append, List.length_replicate, List.length_cons, hLlen]
    omega
  rw [show 2 * (S - T) + 2 + f = (S - T) + (1 + ((S - T) + (1 + f))) from by omega]
  rw [run1_lefts _ (S - T) _ mem S stk (S + 1)
    (fun k hk => (hshift k).trans (hLa k hk)) (by omega) hSM]
  rw [show S - (S - T) = T from by omega]
  have hplusAbs : (Brainfeed.addCode T S).get? (S + 1 + (S - T)) = some '+' :=
    (hshift (S - T)).trans hLplus
  rw [show 1 + ((S - T) + (1 + f)) = ((S - T) + (1 + f)) + 1 from by omega]
  rw [run1_plus _ _ mem T stk (S + 1 + (S - T)) (by omega) hplusAbs]
  rw [run1_rights _ (S - T) _ _ T stk (S + 1 + (S - T) + 1)
    (by intro k hk
        have := (hshift ((S - T) + 1 + k)).trans (hLb k hk)
        rw [show S + 1 + ((S - T) + 1 + k) = S + 1 + (S - T) + 1 + k from by omega] at this
        exact this)
    (by omega)]
  rw [show (T : Nat) + (S - T) = S from by omega]
  have hminusAbs : (Brainfeed.addCode T S).get? (S + 1 + (S - T) + 1 + (S - T)) = some '-' := by
    have := (hshift (2 * (S - T) + 1)).trans hLminus
    rw [show S + 1 + (2 * (S - T) + 1) = S + 1 + (S - T) + 1 + (S - T) from by omega] at this
    exact this
  rw [show 1 + f = f + 1 from by omega]
  rw [run1_minus _ _ _ S stk (S + 1 + (S - T) + 1 + (S - T)) (by omega) hminusAbs]
  have hmemS : Minibf.updMem mem T ((mem T + 1) % 256) S = mem S := by
    unfold Minibf.updMem
    rw [if_neg (by omega)]
  rw [hmemS]
  rw [show S + 1 + (S - T) + 1 + (S - T) + 1 = S + 3 + 2 * (S - T) from by omega]

theorem add_body_gt (T S : Nat) (hTS : S < T) (hTM : T < Minibf.MEM_SIZE)
    (mem : Nat → Nat) (stk : List Nat) (f : Nat) :
    Minibf.run (Brainfeed.addCode T S) ((2 * (T - S) + 2) + f)
      ⟨mem, S, stk, S + 1⟩ =
    Minibf.run (Brainfeed.addCode T S) f
      ⟨Minibf.updMem (Minibf.updMem mem T ((mem T + 1) % 256)) S ((mem S + 255) % 256),
        S, stk, S + 3 + 2 * (T - S)⟩ := by
  obtain ⟨hLa, hLplus, hLb, hLminus, hLrb, hLlen⟩ := bodyList_facts (T - S) '>' '<'
  have hnorm := addCode_norm_gt T S hTS
  have hshift : ∀ j, (Brainfeed.addCode T S).get? (S + 1 + j) =
      (List.replicate (T - S) '>' ++ ('+' :: (List.replicate (T - S) '<' ++ ['-', ']']))).get? j := by
    intro j
    rw [hnorm, List.get?_append_right (by simp; omega)]
    rw [show S + 1 + j - (List.replicate S '>').length = j + 1 by simp; omega]
    rw [List.get?_cons_succ]
  have hlen : (Brainfeed.addCode T S).length = S + 2 * (T - S) + 4 := by
    rw [hnorm]
    simp only [List.length_append, List.length_replicate, List.length_cons, hLlen]
    omega
  rw [show 2 * (T - S) + 2 + f = (T - S) + (1 + ((T - S) + (1 + f))) from by omega]
  rw [run1_rights _ (T - S) _ mem S stk (S + 1)
    (fun k hk => (hshift k).trans (hLa k hk)) (by omega)]
  rw [show (S : Nat) + (T - S) = T from by omega]
  have hplusAbs : (Brainfeed.addCode T S).get? (S + 1 + (T - S)) = some '+' :=
    (hshift (T - S)).trans hLplus
  rw [show 1 + ((T - S) + (1 + f)) = ((T - S) + (1 + f)) + 1 from by omega]
  rw [run1_plus _ _ mem T stk (S + 1 + (T - S)) (by omega) hplusAbs]
  rw [run1_lefts _ (T - S) _ _ T stk (S + 1 + (T - S) + 1)
    (by intro k hk
        have := (hshift ((T - S) + 1 + k)).trans (hLb k hk)
        rw [show S + 1 + ((T - S) + 1 + k) = S + 1 + (T - S) + 1 + k from by omega] at this
        exact this)
    (by omega) hTM]
  rw [show (T : Nat) - (T - S) = S from by omega]
  have hminusAbs : (Brainfeed.addCode T S).get? (S + 1 + (T - S) + 1 + (T - S)) = some '-' := by
    have := (hshift (2 * (T - S) + 1)).trans hLminus
    rw [show S + 1 + (2 * (T - S) + 1) = S + 1 + (T - S) + 1 + (T - S) from by omega] at this
    exact this
  rw [show 1 + f = f + 1 from by omega]
  rw [run1_minus _ _ _ S stk (S + 1 + (T - S) + 1 + (T - S)) (by omega) hminusAbs]
  have hmemS : Minibf.updMem mem T ((mem T + 1) % 256) S = mem S := by
    unfold Minibf.updMem
    rw [if_neg (by omega)]
  rw [hmemS]
  rw [show S + 1 + (T - S) + 1 + (T - S) + 1 = S + 3 + 2 * (T - S) from by omega]

theorem bodyList_no_brackets (d : Nat) (cA cB : Char)
    (hA1 : cA ≠ '[') (hA2 : cA ≠ ']') (hB1 : cB ≠ '[') (hB2 : cB ≠ ']') :
    ∀ j, j < 2 * d + 2 →
      ∃ c, (List.replicate d cA ++ ('+' :: (List.replicate d cB ++ ['-', ']']))).get? j
        = some c ∧ c ≠ '[' ∧ c ≠ ']' := by
  obtain ⟨hLa, hLplus, hLb, hLminus, _, _⟩ := bodyList_facts d cA cB
  intro j hj
  rcases Nat.lt_trichotomy j d with h | h | h
  · exact ⟨cA, hLa j h, hA1, hA2⟩
  · subst h
    exact ⟨'+', hLplus, by decide, by decide⟩
  · rcases Nat.lt_trichotomy j (2 * d + 1) with h2 | h2 | h2
    · refine ⟨cB, ?_, hB1, hB2⟩
      have := hLb (j - d - 1) (by omega)
      rw [show d + 1 + (j - d - 1) = j from by omega] at this
      exact this
    · subst h2
      exact ⟨'-', hLminus, by decide, by decide⟩
    · omega

theorem add_loop_core (T S : Nat) (hne : T ≠ S) (_hSM : S < Minibf.MEM_SIZE) (bl : Nat)
    (hlen : (Brainfeed.addCode T S).length = S + bl + 2)
    (hlb : (Brainfeed.addCode T S).get? S = some '[')
    (hrb : (Brainfeed.addCode T S).get? (S + bl + 1) = some ']')
    (hmid : ∀ k, S < k → k < S + bl + 1 →
      ∃ c, (Brainfeed.addCode T S).get? k = some c ∧ c ≠ '[' ∧ c ≠ ']')
    (hbody : ∀ (mem : Nat → Nat) (stk : List Nat) (f : Nat),
      Minibf.run (Brainfeed.addCode T S) (bl + f) ⟨mem, S, stk, S + 1⟩ =
      Minibf.run (Brainfeed.addCode T S) f
        ⟨Minibf.updMem (Minibf.updMem mem T ((mem T + 1) % 256)) S ((mem S + 255) % 256),
          S, stk, S + 1 + bl⟩) :
    ∀ (s : Nat), s < 256 → ∀ (a : Nat) (mem : Nat → Nat),
      mem S = s → mem T = a → a < 256 →
      ∃ st2 : Minibf.VMSt,
        Minibf.run (Brainfeed.addCode T S) (s * (bl + 2) + 1) ⟨mem, S, [], S⟩ = some st2 ∧
        st2.mem T = (a + s) % 256 ∧ st2.mem S = 0 := by
  intro s
  induction s with
  | zero =>
    intro _ a mem hmS hmT ha
    have hscan : Minibf.scanAux (Brainfeed.addCode T S) (Brainfeed.addCode T S).length S 1 =
        some (S + bl + 2) := by
      have := Minibf.scan_no_brackets (Brainfeed.addCode T S)
        (Brainfeed.addCode T S).length S (S + bl + 1) (by omega) hmid hrb (by omega)
      rw [show S + bl + 1 + 1 = S + bl + 2 from by omega] at this
      exact this
    rw [show 0 * (bl + 2) + 1 = 0 + 1 from by omega]
    rw [run1_lbrack_skip _ 0 mem S [] S (S + bl + 2) (by omega) hlb hmS hscan]
    rw [Minibf.run_done _ 0 _ (by show ¬ S + bl + 2 < (Brainfeed.addCode T S).length; omega)]
    exact ⟨⟨mem, S, [], S + bl + 2⟩, rfl, by
      show mem T = (a + 0) % 256
      rw [Nat.add_zero, Nat.mod_eq_of_lt ha, hmT], hmS⟩
  | succ s ih =>
    intro hs a mem hmS hmT ha
    rw [show (s + 1) * (bl + 2) + 1 = (bl + (1 + (s * (bl + 2) + 1))) + 1 from by ring]
    rw [run1_lbrack_enter _ _ mem S [] S (by omega) hlb (by rw [hmS]; omega)]
    rw [hbody mem [S] (1 + (s * (bl + 2) + 1))]
    rw [show (1 : Nat) + (s * (bl + 2) + 1) = (s * (bl + 2) + 1) + 1 from by omega]
    have hrb2 : (Brainfeed.addCode T S).get? (S + 1 + bl) = some ']' := by
      rw [show S + 1 + bl = S + bl + 1 from by omega]
      exact hrb
    rw [run1_rbrack _ _ _ S S [] (S + 1 + bl)
      (by show S + 1 + bl < (Brainfeed.addCode T S).length; omega) hrb2]
    have hm2S : (Minibf.updMem (Minibf.updMem mem T ((mem T + 1) % 256)) S
        ((mem S + 255) % 256)) S = s := by
      unfold Minibf.updMem
      rw [if_pos rfl, hmS]
      omega
    have hm2T : (Minibf.updMem (Minibf.updMem mem T ((mem T + 1) % 256)) S
        ((mem S + 255) % 256)) T = (a + 1) % 256 := by
      unfold Minibf.updMem
      rw [if_neg (by omega), if_pos rfl, hmT]
    obtain ⟨st2, hrun, hT2, hS2⟩ := ih (by omega) ((a + 1) % 256) _ hm2S hm2T
      (Nat.mod_lt _ (by omega))
    refine ⟨st2, hrun, ?_, hS2⟩
    rw [hT2, Nat.mod_add_mod, show a + 1 + s = a + (s + 1) from by omega]

/-- The initial tape for the add scenario: `t` at the target address, `s`
at the source address, zero elsewhere. -/
def initMem (T t S s : Nat) : Nat → Nat :=
  fun i => if i = T then t else if i = S then s else 0

theorem addCode_lead (T S : Nat) (hne : T ≠ S) :
    ∀ k, k < S → (Brainfeed.addCode T S).get? k = some '>' := by
  intro k hk
  rcases Nat.lt_or_ge T S with h | h
  · rw [addCode_norm_lt T S h, List.get?_append (by simpa using hk)]
    exact Minibf.replicate_get? S k '>' hk
  · rw [addCode_norm_gt T S (by omega), List.get?_append (by simpa using hk)]
    exact Minibf.replicate_get? S k '>' hk

/-- Full execution of the add stream with exact fuel accounting. -/
theorem add_run_exact (T S t s : Nat) (hne : T ≠ S)
    (hT : T < 1000) (hS : S < 1000) (ht : t < 256) (hs : s < 256) :
    ∃ st2 : Minibf.VMSt,
      Minibf.run (Brainfeed.addCode T S) Minibf.MAX_STEPS
        (Minibf.start (initMem T t S s)) = some st2 ∧
      st2.mem T = (t + s) % 256 ∧ st2.mem S = 0 := by
  have hMS : (1000 : Nat) < Minibf.MEM_SIZE := by
    show (1000 : Nat) < 30000
    omega
  have hmemT : initMem T t S s T = t := by
    unfold initMem
    rw [if_pos rfl]
  have hmemS : initMem T t S s S = s := by
    unfold initMem
    rw [if_neg (by omega), if_pos rfl]
  have hloop : ∃ st2 : Minibf.VMSt,
      Minibf.run (Brainfeed.addCode T S)
        (s * ((2 * (max T S - min T S) + 2) + 2) + 1)
        ⟨initMem T t S s, S, [], S⟩ = some st2 ∧
      st2.mem T = (t + s) % 256 ∧ st2.mem S = 0 := by
    rcases Nat.lt_or_ge T S with hc | hc
    · have hmax : max T S - min T S = S - T := by
        rw [Nat.max_eq_right (by omega), Nat.min_eq_left (by omega)]
      rw [hmax]
      obtain ⟨hLa, hLplus, hLb, hLminus, hLrb, hLlen⟩ := bodyList_facts (S - T) '<' '>'
      have hnorm := addCode_norm_lt T S hc
      have hshift : ∀ j, (Brainfeed.addCode T S).get? (S + 1 + j) =
          (List.replicate (S - T) '<' ++
            ('+' :: (List.replicate (S - T) '>' ++ ['-', ']']))).get? j := by
        intro j
        rw [hnorm, List.get?_append_right (by simp; omega)]
        rw [show S + 1 + j - (List.replicate S '>').length = j + 1 by simp; omega]
        rw [List.get?_cons_succ]
      have hlen : (Brainfeed.addCode T S).length = S + (2 * (S - T) + 2) + 2 := by
        rw [hnorm]
        simp only [List.length_append, List.length_replicate, List.length_cons, hLlen]
        omega
      have hlb : (Brainfeed.addCode T S).get? S = some '[' := by
        rw [hnorm, List.get?_append_right (by simp)]
        simp
      have hrb : (Brainfeed.addCode T S).get? (S + (2 * (S - T) + 2) + 1) = some ']' := by
        have := (hshift (2 * (S - T) + 2)).trans hLrb
        rw [show S + 1 + (2 * (S - T) + 2) = S + (2 * (S - T) + 2) + 1 from by omega] at this
        exact this
      refine add_loop_core T S hne (by omega) (2 * (S - T) + 2) hlen hlb hrb ?_ ?_
        s hs t (initMem T t S s) hmemS hmemT ht
      · intro k h1 h2
        obtain ⟨c, hcg, hc1, hc2⟩ := bodyList_no_brackets (S - T) '<' '>'
          (by decide) (by decide) (by decide) (by decide) (k - S - 1) (by omega)
        refine ⟨c, ?_, hc1, hc2⟩
        have := (hshift (k - S - 1)).trans hcg
        rw [show S + 1 + (k - S - 1) = k from by omega] at this
        exact this
      · intro mem stk f
        have := add_body_lt T S hc (by omega) mem stk f
        rw [show S + 3 + 2 * (S - T) = S + 1 + (2 * (S - T) + 2) from by omega] at this
        exact this
    · have hc2 : S < T := by omega
      have hmax : max T S - min T S = T - S := by
        rw [Nat.max_eq_left (by omega), Nat.min_eq_right (by omega)]
      rw [hmax]
      obtain ⟨hLa, hLplus, hLb, hLminus, hLrb, hLlen⟩ := bodyList_facts (T - S) '>' '<'
      have hnorm := addCode_norm_gt T S hc2
      have hshift : ∀ j, (Brainfeed.addCode T S).get? (S + 1 + j) =
          (List.replicate (T - S) '>' ++
            ('+' :: (List.replicate (T - S) '<' ++ ['-', ']']))).get? j := by
        intro j
        rw [hnorm, List.get?_append_right (by simp; omega)]
        rw [show S + 1 + j - (List.replicate S '>').length = j + 1 by simp; omega]
        rw [List.get?_cons_succ]
      have hlen : (Brainfeed.addCode T S).length = S + (2 * (T - S) + 2) + 2 := by
        rw [hnorm]
        simp only [List.length_append, List.length_replicate, List.length_cons, hLlen]
        omega
      have hlb : (Brainfeed.addCode T S).get? S = some '[' := by
        rw [hnorm, List.get?_append_right (by simp)]
        simp
      have hrb : (Brainfeed.addCode T S).get? (S + (2 * (T - S) + 2) + 1) = some ']' := by
        have := (hshift (2 * (T - S) + 2)).trans hLrb
        rw [show S + 1 + (2 * (T - S) + 2) = S + (2 * (T - S) + 2) + 1 from by omega] at this
        exact this
      refine add_loop_core T S hne (by omega) (2 * (T - S) + 2) hlen hlb hrb ?_ ?_
        s hs t (initMem T t S s) hmemS hmemT ht
      · intro k h1 h2
        obtain ⟨c, hcg, hc1, hc4⟩ := bodyList_no_brackets (T - S) '>' '<'
          (by decide) (by decide) (by decide) (by decide) (k - S - 1) (by omega)
        refine ⟨c, ?_, hc1, hc4⟩
        have := (hshift (k - S - 1)).trans hcg
        rw [show S + 1 + (k - S - 1) = k from by omega] at this
        exact this
      · intro mem stk f
        have := add_body_gt T S hc2 (by omega) mem stk f
        rw [show S + 3 + 2 * (T - S) = S + 1 + (2 * (T - S) + 2) from by omega] at this
        exact this
  obtain ⟨st2, hrun, hT2, hS2⟩ := hloop
  refine ⟨st2, ?_, hT2, hS2⟩
  have hseek : Minibf.run (Brainfeed.addCode T S)
      (S + (s * ((2 * (max T S - min T S) + 2) + 2) + 1))
      (Minibf.start (initMem T t S s)) = some st2 := by
    have hstart : Minibf.start (initMem T t S s) =
        (⟨initMem T t S s, 0, [], 0⟩ : Minibf.VMSt) := rfl
    rw [hstart]
    rw [run1_rights _ S _ (initMem T t S s) 0 [] 0
      (by intro k hk
          rw [Nat.zero_add]
          exact addCode_lead T S hne k hk)
      (by omega)]
    simp only [Nat.zero_add]
    exact hrun
  refine Minibf.run_mono _ _ _ _ hseek Minibf.MAX_STEPS ?_
  have hd : max T S - min T S ≤ 1000 := by omega
  show S + (s * ((2 * (max T S - min T S) + 2) + 2) + 1) ≤ 1000000
  have : s * ((2 * (max T S - min T S) + 2) + 2) ≤ 255 * 2004 := by
    apply Nat.mul_le_mul <;> omega
  omega

/-- C3: for all initial cell values t, s (mod-256 cells) at distinct
addresses T and S in the allocator range, `add(target, source)` emits
`addCode T S`, and executing that stream on the reference VM (tape holding
t at T and s at S, pointer at 0) leaves the target cell equal to
(t + s) mod 256 and the source cell equal to 0. -/
theorem claim_C3_add_correct (T S t s : Nat) (hne : T ≠ S) (hT : T < 1000) (hS : S < 1000)
    (ht : t < 256) (hs : s < 256) :
    (Brainfeed.add (T : Int) (S : Int) Brainfeed.fresh).map Brainfeed.Ctx.code =
      some (Brainfeed.addCode T S) ∧
    Minibf.memAt (Minibf.run (Brainfeed.addCode T S) Minibf.MAX_STEPS
      (Minibf.start (initMem T t S s))) T = some ((t + s) % 256) ∧
    Minibf.memAt (Minibf.run (Brainfeed.addCode T S) Minibf.MAX_STEPS
      (Minibf.start (initMem T t S s))) S = some 0 := by
  obtain ⟨ctx2, hemit, hcode, _⟩ := Brainfeed.add_emits T S hne
  obtain ⟨st2, hrun, hT2, hS2⟩ := add_run_exact T S t s hne hT hS ht hs
  refine ⟨?_, ?_, ?_⟩
  · rw [hemit, Option.map_some', hcode]
  · unfold Minibf.memAt
    rw [hrun, Option.map_some', hT2]
  · unfold Minibf.memAt
    rw [hrun, Option.map_some', hS2]

/-- C3 witness: the add theorem at target address 0, source address 1,
with initial values 6 and 7. -/
theorem claim_C3_add_correct_witness :
    (Brainfeed.add (0 : Int) (1 : Int) Brainfeed.fresh).map Brainfeed.Ctx.code =
      some (Brainfeed.addCode 0 1) ∧
    Minibf.memAt (Minibf.run (Brainfeed.addCode 0 1) Minibf.MAX_STEPS
      (Minibf.start (initMem 0 6 1 7))) 0 = some ((6 + 7) % 256) ∧
    Minibf.memAt (Minibf.run (Brainfeed.addCode 0 1) Minibf.MAX_STEPS
      (Minibf.start (initMem 0 6 1 7))) 1 = some 0 :=
  claim_C3_add_correct 0 1 6 7 (by decide) (by decide) (by decide) (by decide) (by decide)

namespace Brainfeed

/-- Deep embedding of sequences of primitive calls on the emission
context; `whileC` bodies are themselves such sequences.  Derived source
primitives (add, mov, copy, the logic ops, ...) are compositions of these
calls at concrete addresses, so their emissions and cursor moves are
emissions of commands of this type. -/
inductive Cmd
  | skip
  | seq (a b : Cmd)
  | clearC (p : Int)
  | setC (p : Int) (v : Nat)
  | setBoolC (p : Int) (b : Bool)
  | incC (p : Int)
  | decC (p : Int)
  | incByC (p : Int) (n : Nat)
  | decByC (p : Int) (n : Nat)
  | printC (p : Int)
  | readC (p : Int)
  | assumeC (p : Int) (v : Nat)
  | forgetC (p : Int)
  | whileC (p : Int) (body : Cmd)

/-- Run a command sequence against the emission context: each constructor
is the corresponding `Context` primitive. -/
def emitCmd : Cmd → Ctx → Option Ctx
  | .skip, ctx => some ctx
  | .seq a b, ctx => (emitCmd a ctx).bind (emitCmd b)
  | .clearC p, ctx => clear p ctx
  | .setC p v, ctx => set p v ctx
  | .setBoolC p b, ctx => setBool p b ctx
  | .incC p, ctx => increment p ctx
  | .decC p, ctx => decrement p ctx
  | .incByC p n, ctx => incrementBy p n ctx
  | .decByC p n, ctx => decrementBy p n ctx
  | .printC p, ctx => print p ctx
  | .readC p, ctx => read p ctx
  | .assumeC p v, ctx => some (assume p v ctx)
  | .forgetC p, ctx => some (forget p ctx)
  | .whileC p body, ctx =>
    let c := forgetAll (emitOp (seek p ctx) '[')
    (emitCmd body c).map fun c2 => emitOp (seek p c2) ']'

/-- The `whileC` interpretation is exactly `while_not_zero` with the body
interpretation. -/
theorem emitCmd_whileC (p : Int) (body : Cmd) :
    emitCmd (.whileC p body) = whileNotZero p (emitCmd body) := rfl

/-- Net cursor shift of one byte. -/
def chDelta (c : Char) : Int :=
  if c = '>' then 1 else if c = '<' then -1 else 0

/-- Net cursor shift of a byte stream. -/
def net : List Char → Int
  | [] => 0
  | c :: rest => chDelta c + net rest

theorem net_append : ∀ (a b : List Char), net (a ++ b) = net a + net b := by
  intro a
  induction a with
  | nil => intro b; simp [net]
  | cons c rest ih =>
    intro b
    show chDelta c + net (rest ++ b) = chDelta c + net rest + net b
    rw [ih]
    ring

theorem net_replicate_gt (d : Nat) : net (List.replicate d '>') = d := by
  induction d with
  | zero => rfl
  | succ d ih =>
    show chDelta '>' + net (List.replicate d '>') = (d + 1 : Nat)
    rw [ih]
    show (1 : Int) + d = ((d + 1 : Nat) : Int)
    omega

theorem net_replicate_lt (d : Nat) : net (List.replicate d '<') = -(d : Int) := by
  induction d with
  | zero => rfl
  | succ d ih =>
    show chDelta '<' + net (List.replicate d '<') = -((d + 1 : Nat) : Int)
    rw [ih]
    show (-1 : Int) + -(d : Int) = _
    omega

/-- The running open-bracket stack of a byte stream: positions of `[`
bytes whose `]` has not yet been seen, innermost first. -/
def opAux : List Char → Nat → List Nat → List Nat
  | [], _, s => s
  | c :: rest, p, s =>
    opAux rest (p + 1) (if c = '[' then p :: s else if c = ']' then s.tail else s)

theorem opAux_append : ∀ (a b : List Char) (p : Nat) (s : List Nat),
    opAux (a ++ b) p s = opAux b (p + a.length) (opAux a p s) := by
  intro a
  induction a with
  | nil => intro b p s; simp [opAux]
  | cons c rest ih =>
    intro b p s
    show opAux (rest ++ b) (p + 1) _ = _
    rw [ih]
    simp only [opAux, List.length_cons]
    rw [show p + 1 + rest.length = p + (rest.length + 1) from by omega]

theorem opAux_no_brackets : ∀ (l : List Char) (p : Nat) (s : List Nat),
    (∀ x ∈ l, x ≠ '[' ∧ x ≠ ']') → opAux l p s = s := by
  intro l
  induction l with
  | nil => intro p s _; rfl
  | cons c rest ih =>
    intro p s h
    obtain ⟨h1, h2⟩ := h c (by simp)
    show opAux rest (p + 1) _ = s
    rw [if_neg h1, if_neg h2]
    exact ih (p + 1) s (fun x hx => h x (by simp [hx]))

/-- Cursor-consistency of a byte stream: every `]` has an enclosing `[`
on the running stack, opened at an earlier position with the same net
cursor shift.  Every stream the emission context produces satisfies
this. -/
def WellCur (c : List Char) : Prop :=
  ∀ k, c.get? k = some ']' →
    ∃ j js, j < k ∧ opAux (c.take k) 0 [] = j :: js ∧ net (c.take k) = net (c.take j)

theorem WellCur_nil : WellCur [] := by
  intro k h
  simp at h

theorem WellCur_take (c : List Char) (hk : WellCur c) (k : Nat) : WellCur (c.take k) := by
  intro m hm
  have hmk : m < k := by
    obtain ⟨hlt, _⟩ := List.get?_eq_some.mp hm
    rw [List.length_take] at hlt
    omega
  have hmc : c.get? m = some ']' := by
    rw [← List.get?_take hmk]
    exact hm
  obtain ⟨j, js, hjm, h1, h2⟩ := hk m hmc
  refine ⟨j, js, hjm, ?_, ?_⟩
  · rw [List.take_take, Nat.min_eq_left (by omega)]
    exact h1
  · rw [List.take_take, Nat.min_eq_left (by omega),
      List.take_take, Nat.min_eq_left (by omega)]
    exact h2

end Brainfeed

namespace Brainfeed

/-- Structure of the running open-bracket stack: its top is an earlier
`[` byte, and below it lies the stack of the stream truncated there. -/
theorem opAux_shape : ∀ (n : Nat) (c : List Char), c.length ≤ n → ∀ j js,
    opAux c 0 [] = j :: js →
    j < c.length ∧ c.get? j = some '[' ∧ opAux (c.take j) 0 [] = js := by
  intro n
  induction n with
  | zero =>
    intro c hlen j js h
    have : c = [] := List.eq_nil_of_length_eq_zero (by omega)
    subst this
    exact absurd h (by simp [opAux])
  | succ n ih =>
    intro c hlen j js h
    rcases List.eq_nil_or_concat c with hc | ⟨q, x, hc⟩
    · subst hc
      exact absurd h (by simp [opAux])
    · subst hc
      rw [List.concat_eq_append] at *
      have hq : q.length ≤ n := by
        rw [List.length_append] at hlen
        simp at hlen
        omega
      rw [opAux_append] at h
      by_cases hx1 : x = '['
      · subst hx1
        have h2 : q.length :: opAux q 0 [] = j :: js := by
          simpa [opAux] using h
        have hj : j = q.length := by cases h2; rfl
        have hjs : js = opAux q 0 [] := by cases h2; rfl
        subst hj
        refine ⟨by simp, ?_, ?_⟩
        · rw [List.get?_append_right (le_refl _)]
          simp
        · rw [List.take_left]
          exact hjs.symm
      · by_cases hx2 : x = ']'
        · subst hx2
          have h2 : (opAux q 0 []).tail = j :: js := by
            simpa [opAux, hx1] using h
          cases hq0 : opAux q 0 [] with
          | nil => rw [hq0] at h2; exact absurd h2 (by simp)
          | cons j0 rest =>
            rw [hq0] at h2
            simp only [List.tail_cons] at h2
            obtain ⟨hj0len, hget0, htake0⟩ := ih q hq j0 rest hq0
            have htake0' : opAux (q.take j0) 0 [] = j :: js := by
              rw [htake0, h2]
            obtain ⟨hjlen2, hget2, htake2⟩ := ih (q.take j0)
              (by rw [List.length_take]; omega) j js htake0'
            rw [List.length_take] at hjlen2
            have hjj0 : j < j0 := by omega
            refine ⟨by simp; omega, ?_, ?_⟩
            · rw [List.get?_append (by omega)]
              rw [← List.get?_take hjj0]
              exact hget2
            · rw [List.take_append_of_le_length (by omega)]
              rw [List.take_take, Nat.min_eq_left (by omega)] at htake2
              exact htake2
        · have h2 : opAux q 0 [] = j :: js := by
            simpa [opAux, hx1, hx2] using h
          obtain ⟨hjlen, hget, htake⟩ := ih q hq j js h2
          refine ⟨by simp; omega, ?_, ?_⟩
          · rw [List.get?_append (by omega)]
            exact hget
          · rw [List.take_append_of_le_length (by omega)]
            exact htake

end Brainfeed

theorem tail_append_of_ne_nil (pre s : List Nat) (h : pre ≠ []) :
    (pre ++ s).tail = pre.tail ++ s := by
  cases pre with
  | nil => exact absurd rfl h
  | cons a l => rfl

theorem drop_cons_of_get? (l : List Char) (k : Nat) (ch : Char) (h : l.get? k = some ch) :
    l.drop k = ch :: l.drop (k + 1) := by
  obtain ⟨hlt, hget⟩ := List.get?_eq_some.mp h
  rw [List.drop_eq_get_cons hlt, hget]

theorem drop_tail_eq (pre : List Nat) (a b : Nat) (h : a + 1 = b) :
    pre.tail.drop a = pre.drop b := by
  rw [← List.drop_one, List.drop_drop]
  congr 1
  omega

/-- Specification of the `[`-scan of the VM: from position `i` with `n`
unclosed brackets, a successful scan stops one past a `]` at position `m`;
processing the scanned segment on the running open-bracket stack pops
exactly `n` entries (and `n-1` entries up to just before the closing
`]`), never touching what lies below them. -/
theorem scanAux_spec (c : List Char) : ∀ (fuel i n r : Nat), 0 < n →
    Minibf.scanAux c fuel i n = some r →
    ∃ m, r = m + 1 ∧ i < m ∧ m < c.length ∧ c.get? m = some ']' ∧
      (∀ (pre s : List Nat), pre.length = n →
        Brainfeed.opAux ((c.take m).drop (i + 1)) (i + 1) (pre ++ s) =
          pre.drop (n - 1) ++ s) ∧
      (∀ (pre s : List Nat), pre.length = n →
        Brainfeed.opAux ((c.take (m + 1)).drop (i + 1)) (i + 1) (pre ++ s) =
          pre.drop n ++ s) := by
  intro fuel
  induction fuel with
  | zero =>
    intro i n r hn h
    exact absurd h (by simp [Minibf.scanAux])
  | succ fuel ih =>
    intro i n r hn h
    unfold Minibf.scanAux at h
    cases hch : c.get? (i + 1) with
    | none => rw [hch] at h; exact absurd h (by simp)
    | some ch =>
      rw [hch] at h
      have hi1len : i + 1 < c.length := by
        obtain ⟨hlt, _⟩ := List.get?_eq_some.mp hch
        exact hlt
      by_cases h1 : ch = '['
      · subst h1
        have h' : Minibf.scanAux c fuel (i + 1) (n + 1) = some r := by
          simpa using h
        obtain ⟨m, hr, him, hmlen, hmrb, hpart1, hpart2⟩ := ih (i + 1) (n + 1) r
          (by omega) h'
        refine ⟨m, hr, by omega, hmlen, hmrb, ?_, ?_⟩
        · intro pre s hpre
          have hdrop : (c.take m).drop (i + 1) = '[' :: (c.take m).drop (i + 2) := by
            have : (c.take m).get? (i + 1) = some '[' := by
              rw [List.get?_take (by omega)]
              exact hch
            exact drop_cons_of_get? _ _ _ this
          rw [hdrop]
          show Brainfeed.opAux ((c.take m).drop (i + 2)) (i + 1 + 1) _ = _
          rw [if_pos rfl]
          have := hpart1 ((i + 1) :: pre) s (by simp [hpre])
          rw [show (i + 1 + 1 : Nat) = i + 2 from rfl] at this
          rw [show ((i + 1) :: pre) ++ s = (i + 1) :: (pre ++ s) from rfl] at this
          rw [this]
          rw [show n + 1 - 1 = (n - 1) + 1 from by omega, List.drop_succ_cons]
        · intro pre s hpre
          have hdrop : (c.take (m + 1)).drop (i + 1) = '[' :: (c.take (m + 1)).drop (i + 2) := by
            have : (c.take (m + 1)).get? (i + 1) = some '[' := by
              rw [List.get?_take (by omega)]
              exact hch
            exact drop_cons_of_get? _ _ _ this
          rw [hdrop]
          show Brainfeed.opAux ((c.take (m + 1)).drop (i + 2)) (i + 1 + 1) _ = _
          rw [if_pos rfl]
          have := hpart2 ((i + 1) :: pre) s (by simp [hpre])
          rw [show ((i + 1) :: pre) ++ s = (i + 1) :: (pre ++ s) from rfl] at this
          rw [this, List.drop_succ_cons]
      · by_cases h2 : ch = ']'
        · subst h2
          by_cases hn1 : n = 1
          · subst hn1
            have hr : r = i + 2 := by
              have : some (i + 2) = some r := by simpa using h
              cases this; rfl
            refine ⟨i + 1, by omega, by omega, hi1len, hch, ?_, ?_⟩
            · intro pre s hpre
              rw [List.drop_eq_nil_of_le (by rw [List.length_take]; omega)]
              show pre ++ s = pre.drop 0 ++ s
              rfl
            · intro pre s hpre
              obtain ⟨p, hp⟩ := List.length_eq_one.mp hpre
              subst hp
              have htake : c.take (i + 1 + 1) = c.take (i + 1) ++ [']'] := by
                rw [List.take_succ, ← List.get?_eq_getElem?, hch]
                rfl
              rw [htake]
              have hlen1 : (List.take (i + 1) c).length = i + 1 := by
                rw [List.length_take]; omega
              rw [List.drop_left' hlen1]
              show Brainfeed.opAux [] (i + 1 + 1) (([p] ++ s).tail) = [p].drop 1 ++ s
              rfl
          · have hn2 : 2 ≤ n := by omega
            have h' : Minibf.scanAux c fuel (i + 1) (n - 1) = some r := by
              have : ¬ (n - 1 = 0) := by omega
              simpa [this] using h
            obtain ⟨m, hr, him, hmlen, hmrb, hpart1, hpart2⟩ := ih (i + 1) (n - 1) r
              (by omega) h'
            refine ⟨m, hr, by omega, hmlen, hmrb, ?_, ?_⟩
            · intro pre s hpre
              have hpre_ne : pre ≠ [] := by
                intro hc
                rw [hc] at hpre
                simp at hpre
                omega
              have hdrop : (c.take m).drop (i + 1) = ']' :: (c.take m).drop (i + 2) := by
                have : (c.take m).get? (i + 1) = some ']' := by
                  rw [List.get?_take (by omega)]
                  exact hch
                exact drop_cons_of_get? _ _ _ this
              rw [hdrop]
              show Brainfeed.opAux ((c.take m).drop (i + 2)) (i + 1 + 1) _ = _
              rw [if_neg (by decide), if_pos rfl]
              rw [tail_append_of_ne_nil pre s hpre_ne]
              have := hpart1 pre.tail s (by rw [List.length_tail]; omega)
              rw [this]
              rw [drop_tail_eq pre (n - 1 - 1) (n - 1) (by omega)]
            · intro pre s hpre
              have hpre_ne : pre ≠ [] := by
                intro hc
                rw [hc] at hpre
                simp at hpre
                omega
              have hdrop : (c.take (m + 1)).drop (i + 1) =
                  ']' :: (c.take (m + 1)).drop (i + 2) := by
                have : (c.take (m + 1)).get? (i + 1) = some ']' := by
                  rw [List.get?_take (by omega)]
                  exact hch
                exact drop_cons_of_get? _ _ _ this
              rw [hdrop]
              show Brainfeed.opAux ((c.take (m + 1)).drop (i + 2)) (i + 1 + 1) _ = _
              rw [if_neg (by decide), if_pos rfl]
              rw [tail_append_of_ne_nil pre s hpre_ne]
              have := hpart2 pre.tail s (by rw [List.length_tail]; omega)
              rw [this]
              rw [drop_tail_eq pre (n - 1) n (by omega)]
        · have h' : Minibf.scanAux c fuel (i + 1) n = some r := by
            have hne : ¬ (n = 0) := by omega
            simpa [h1, h2, hne] using h
          obtain ⟨m, hr, him, hmlen, hmrb, hpart1, hpart2⟩ := ih (i + 1) n r hn h'
          refine ⟨m, hr, by omega, hmlen, hmrb, ?_, ?_⟩
          · intro pre s hpre
            have hdrop : (c.take m).drop (i + 1) = ch :: (c.take m).drop (i + 2) := by
              have : (c.take m).get? (i + 1) = some ch := by
                rw [List.get?_take (by omega)]
                exact hch
              exact drop_cons_of_get? _ _ _ this
            rw [hdrop]
            show Brainfeed.opAux ((c.take m).drop (i + 2)) (i + 1 + 1) _ = _
            rw [if_neg h1, if_neg h2]
            exact hpart1 pre s hpre
          · intro pre s hpre
            have hdrop : (c.take (m + 1)).drop (i + 1) = ch :: (c.take (m + 1)).drop (i + 2) := by
              have : (c.take (m + 1)).get? (i + 1) = some ch := by
                rw [List.get?_take (by omega)]
                exact hch
              exact drop_cons_of_get? _ _ _ this
            rw [hdrop]
            show Brainfeed.opAux ((c.take (m + 1)).drop (i + 2)) (i + 1 + 1) _ = _
            rw [if_neg h1, if_neg h2]
            exact hpart2 pre s hpre

/-! The cursor invariant of VM execution (claim C10). -/

theorem step_dot_at (code : List Char) (st : Minibf.VMSt)
    (h : code.get? st.ip = some '.') : Minibf.step code st = none := by
  unfold Minibf.step; rw [h]; rfl

theorem step_comma_at (code : List Char) (st : Minibf.VMSt)
    (h : code.get? st.ip = some ',') : Minibf.step code st = none := by
  unfold Minibf.step; rw [h]; rfl

theorem step_other_at (code : List Char) (st : Minibf.VMSt) (c : Char)
    (h : code.get? st.ip = some c)
    (h1 : ¬ c = '<') (h2 : ¬ c = '>') (h3 : ¬ c = '+') (h4 : ¬ c = '-')
    (h5 : ¬ c = '[') (h6 : ¬ c = ']') (h7 : ¬ c = '.') (h8 : ¬ c = ',') :
    Minibf.step code st = some { st with ip := st.ip + 1 } := by
  unfold Minibf.step; rw [h]
  simp only [if_neg h1, if_neg h2, if_neg h3, if_neg h4, if_neg h5, if_neg h6,
    if_neg h7, if_neg h8]

theorem dp_succ_mod (n : Int) :
    ((n % 30000).toNat + 1) % 30000 = ((n + 1) % 30000).toNat := by omega

theorem dp_pred_mod (n : Int) :
    ((n % 30000).toNat + 29999) % 30000 = ((n - 1) % 30000).toNat := by omega

theorem take_succ_of_get? (c : List Char) (k : Nat) (ch : Char)
    (h : c.get? k = some ch) : c.take (k + 1) = c.take k ++ [ch] := by
  rw [List.take_succ, ← List.get?_eq_getElem?, h]
  rfl

theorem opAux_take_succ (c : List Char) (k : Nat) (ch : Char) (h : c.get? k = some ch) :
    Brainfeed.opAux (c.take (k + 1)) 0 [] =
      (if ch = '[' then k :: Brainfeed.opAux (c.take k) 0 []
       else if ch = ']' then (Brainfeed.opAux (c.take k) 0 []).tail
       else Brainfeed.opAux (c.take k) 0 []) := by
  rw [take_succ_of_get? c k ch h, Brainfeed.opAux_append]
  have hklen : (c.take k).length = k := by
    obtain ⟨hlt, _⟩ := List.get?_eq_some.mp h
    rw [List.length_take]; omega
  rw [hklen]
  simp only [Nat.zero_add]
  rfl

theorem net_take_succ (c : List Char) (k : Nat) (ch : Char) (h : c.get? k = some ch) :
    Brainfeed.net (c.take (k + 1)) = Brainfeed.net (c.take k) + Brainfeed.chDelta ch := by
  rw [take_succ_of_get? c k ch h, Brainfeed.net_append]
  show _ + (Brainfeed.chDelta ch + Brainfeed.net []) = _
  show _ + (Brainfeed.chDelta ch + 0) = _
  ring

/-- The invariant tying a VM state to the code it runs: the loop stack is
the running open-bracket stack of the consumed prefix, and the data
pointer is the net cursor shift of that prefix, reduced modulo the tape
size. -/
def cInv (c : List Char) (st : Minibf.VMSt) : Prop :=
  st.stk = Brainfeed.opAux (c.take st.ip) 0 [] ∧
  st.dp = ((Brainfeed.net (c.take st.ip)) % 30000).toNat ∧
  st.ip ≤ c.length

theorem run_succ_none (code : List Char) (f : Nat) (st : Minibf.VMSt)
    (hip : st.ip < code.length) (hstep : Minibf.step code st = none) :
    Minibf.run code (f + 1) st = none := by
  show (if st.ip < code.length then
      match Minibf.step code st with
      | none => none
      | some st2 => Minibf.run code f st2
    else some st) = none
  rw [if_pos hip, hstep]

theorem opAux_take_succ_other (c : List Char) (k : Nat) (ch : Char)
    (h : c.get? k = some ch) (h1 : ¬ ch = '[') (h2 : ¬ ch = ']') :
    Brainfeed.opAux (c.take (k + 1)) 0 [] = Brainfeed.opAux (c.take k) 0 [] := by
  rw [opAux_take_succ c k ch h, if_neg h1, if_neg h2]

/-- Decomposing the running stack of a prefix that extends past a `[` at
position `i`: it is the scan of the segment after the `[`, started on the
stack of the prefix up to `i` with `i` pushed. -/
theorem opAux_seg (c : List Char) (i e : Nat) (hie : i < e)
    (hch : c.get? i = some '[') :
    Brainfeed.opAux (c.take e) 0 [] =
      Brainfeed.opAux ((c.take e).drop (i + 1)) (i + 1)
        (i :: Brainfeed.opAux (c.take i) 0 []) := by
  have hilen : i < c.length := by
    obtain ⟨hlt, _⟩ := List.get?_eq_some.mp hch
    omega
  have h1 : (c.take e).take i = c.take i := by
    rw [List.take_take, Nat.min_eq_left (by omega)]
  have h2 : (c.take e).get? i = some '[' := by
    rw [List.get?_take hie]; exact hch
  have h3 : (c.take e).drop i = '[' :: (c.take e).drop (i + 1) :=
    drop_cons_of_get? _ i _ h2
  have hlen : (c.take i).length = i := by
    rw [List.length_take]; omega
  conv_lhs => rw [← List.take_append_drop i (c.take e)]
  rw [Brainfeed.opAux_append, h1, hlen, h3]
  show Brainfeed.opAux ((c.take e).drop (i + 1)) (0 + i + 1)
      (if ('[' : Char) = '[' then (0 + i) :: Brainfeed.opAux (c.take i) 0 []
       else if ('[' : Char) = ']' then (Brainfeed.opAux (c.take i) 0 []).tail
       else Brainfeed.opAux (c.take i) 0 []) = _
  rw [if_pos rfl]
  simp only [Nat.zero_add]

/-- The cursor invariant is preserved by a whole VM run on a
cursor-consistent stream: a completed run ends past the code with the
loop stack and data pointer determined by the full prefix consumed. -/
theorem run_cInv : ∀ (fuel : Nat) (c : List Char) (st st2 : Minibf.VMSt),
    Brainfeed.WellCur c → cInv c st →
    Minibf.run c fuel st = some st2 →
    cInv c st2 ∧ ¬ st2.ip < c.length := by
  intro fuel
  induction fuel with
  | zero =>
    intro c st st2 _ hinv hrun
    by_cases hip : st.ip < c.length
    · rw [show Minibf.run c 0 st = none from by
        show (if st.ip < c.length then none else some st) = none
        rw [if_pos hip]] at hrun
      exact Option.noConfusion hrun
    · rw [Minibf.run_done c 0 st hip] at hrun
      cases hrun
      exact ⟨hinv, hip⟩
  | succ fuel ih =>
    intro c st st2 hw hinv hrun
    by_cases hip : st.ip < c.length
    swap
    · rw [Minibf.run_done c (fuel + 1) st hip] at hrun
      cases hrun
      exact ⟨hinv, hip⟩
    obtain ⟨hstk, hdp, _⟩ := hinv
    cases hch0 : c.get? st.ip with
    | none =>
      rw [List.get?_eq_none] at hch0
      omega
    | some ch =>
    by_cases hb1 : ch = '<'
    · subst hb1
      rw [Minibf.run_succ_of_step c fuel st _ hip (Minibf.step_lt_at c st hch0)] at hrun
      refine ih c _ st2 hw ⟨?_, ?_, ?_⟩ hrun
      · show st.stk = _
        rw [opAux_take_succ_other c st.ip '<' hch0 (by decide) (by decide)]
        exact hstk
      · show (st.dp + (Minibf.MEM_SIZE - 1)) % Minibf.MEM_SIZE = _
        rw [net_take_succ c st.ip '<' hch0,
          (by decide : Brainfeed.chDelta ('<' : Char) = (-1 : Int)), hdp]
        simp only [Minibf.MEM_SIZE]
        omega
      · show st.ip + 1 ≤ c.length
        omega
    by_cases hb2 : ch = '>'
    · subst hb2
      rw [Minibf.run_succ_of_step c fuel st _ hip (Minibf.step_gt_at c st hch0)] at hrun
      refine ih c _ st2 hw ⟨?_, ?_, ?_⟩ hrun
      · show st.stk = _
        rw [opAux_take_succ_other c st.ip '>' hch0 (by decide) (by decide)]
        exact hstk
      · show (st.dp + 1) % Minibf.MEM_SIZE = _
        rw [net_take_succ c st.ip '>' hch0,
          (by decide : Brainfeed.chDelta ('>' : Char) = (1 : Int)), hdp]
        simp only [Minibf.MEM_SIZE]
        omega
      · show st.ip + 1 ≤ c.length
        omega
    by_cases hb3 : ch = '+'
    · subst hb3
      rw [Minibf.run_succ_of_step c fuel st _ hip (Minibf.step_plus_at c st hch0)] at hrun
      refine ih c _ st2 hw ⟨?_, ?_, ?_⟩ hrun
      · show st.stk = _
        rw [opAux_take_succ_other c st.ip '+' hch0 (by decide) (by decide)]
        exact hstk
      · show st.dp = _
        rw [net_take_succ c st.ip '+' hch0,
          (by decide : Brainfeed.chDelta ('+' : Char) = (0 : Int)), add_zero]
        exact hdp
      · show st.ip + 1 ≤ c.length
        omega
    by_cases hb4 : ch = '-'
    · subst hb4
      rw [Minibf.run_succ_of_step c fuel st _ hip (Minibf.step_minus_at c st hch0)] at hrun
      refine ih c _ st2 hw ⟨?_, ?_, ?_⟩ hrun
      · show st.stk = _
        rw [opAux_take_succ_other c st.ip '-' hch0 (by decide) (by decide)]
        exact hstk
      · show st.dp = _
        rw [net_take_succ c st.ip '-' hch0,
          (by decide : Brainfeed.chDelta ('-' : Char) = (0 : Int)), add_zero]
        exact hdp
      · show st.ip + 1 ≤ c.length
        omega
    by_cases hb5 : ch = '['
    · subst hb5
      by_cases hz : st.mem st.dp = 0
      · cases hscan : Minibf.scanAux c c.length st.ip 1 with
        | none =>
          exfalso
          rw [run_succ_none c fuel st hip (by
            rw [Minibf.step_lbrack_skip c st hch0 hz, hscan]
            rfl)] at hrun
          exact Option.noConfusion hrun
        | some r =>
          obtain ⟨m, hr, him, hmlen, hmch, hpart1, hpart2⟩ :=
            scanAux_spec c c.length st.ip 1 r (by omega) hscan
          subst hr
          rw [Minibf.run_succ_of_step c fuel st _ hip (by
            rw [Minibf.step_lbrack_skip c st hch0 hz, hscan]
            rfl)] at hrun
          have hA : Brainfeed.opAux (c.take m) 0 [] =
              st.ip :: Brainfeed.opAux (c.take st.ip) 0 [] := by
            rw [opAux_seg c st.ip m him hch0]
            have h := hpart1 [st.ip] (Brainfeed.opAux (c.take st.ip) 0 []) rfl
            simpa using h
          have hB : Brainfeed.opAux (c.take (m + 1)) 0 [] =
              Brainfeed.opAux (c.take st.ip) 0 [] := by
            rw [opAux_seg c st.ip (m + 1) (by omega) hch0]
            have h := hpart2 [st.ip] (Brainfeed.opAux (c.take st.ip) 0 []) rfl
            simpa using h
          obtain ⟨j, js, _, hop, hnet⟩ := hw m hmch
          have hj : j = st.ip := by
            rw [hA] at hop
            injection hop with h1 _
            exact h1.symm
          subst hj
          have hC : Brainfeed.net (c.take (m + 1)) = Brainfeed.net (c.take st.ip) := by
            rw [net_take_succ c m ']' hmch,
              (by decide : Brainfeed.chDelta (']' : Char) = (0 : Int)), add_zero]
            exact hnet
          refine ih c _ st2 hw ⟨?_, ?_, ?_⟩ hrun
          · show st.stk = _
            rw [hB]
            exact hstk
          · show st.dp = _
            rw [hC]
            exact hdp
          · show m + 1 ≤ c.length
            omega
      · rw [Minibf.run_succ_of_step c fuel st _ hip
          (Minibf.step_lbrack_enter c st hch0 hz)] at hrun
        refine ih c _ st2 hw ⟨?_, ?_, ?_⟩ hrun
        · show st.ip :: st.stk = _
          rw [opAux_take_succ c st.ip '[' hch0, if_pos rfl, hstk]
        · show st.dp = _
          rw [net_take_succ c st.ip '[' hch0,
            (by decide : Brainfeed.chDelta ('[' : Char) = (0 : Int)), add_zero]
          exact hdp
        · show st.ip + 1 ≤ c.length
          omega
    by_cases hb6 : ch = ']'
    · subst hb6
      obtain ⟨j, js, hjlt, hop, hnet⟩ := hw st.ip hch0
      rw [Minibf.run_succ_of_step c fuel st _ hip
        (Minibf.step_rbrack_pop c st j js hch0 (hstk.trans hop))] at hrun
      obtain ⟨_, _, htake⟩ :=
        Brainfeed.opAux_shape (c.take st.ip).length (c.take st.ip) (le_refl _) j js hop
      rw [List.take_take, Nat.min_eq_left (by omega)] at htake
      refine ih c _ st2 hw ⟨?_, ?_, ?_⟩ hrun
      · show js = _
        exact htake.symm
      · show st.dp = _
        rw [← hnet]
        exact hdp
      · show j ≤ c.length
        omega
    by_cases hb7 : ch = '.'
    · subst hb7
      rw [run_succ_none c fuel st hip (step_dot_at c st hch0)] at hrun
      exact Option.noConfusion hrun
    by_cases hb8 : ch = ','
    · subst hb8
      rw [run_succ_none c fuel st hip (step_comma_at c st hch0)] at hrun
      exact Option.noConfusion hrun
    rw [Minibf.run_succ_of_step c fuel st _ hip
      (step_other_at c st ch hch0 hb1 hb2 hb3 hb4 hb5 hb6 hb7 hb8)] at hrun
    refine ih c _ st2 hw ⟨?_, ?_, ?_⟩ hrun
    · show st.stk = _
      rw [opAux_take_succ_other c st.ip ch hch0 hb5 hb6]
      exact hstk
    · show st.dp = _
      rw [net_take_succ c st.ip ch hch0, Brainfeed.chDelta, if_neg hb2, if_neg hb1, add_zero]
      exact hdp
    · show st.ip + 1 ≤ c.length
      omega

namespace Brainfeed

/-- The emitter invariant for cursor soundness.  `os` records the
currently unclosed `[` bytes: their positions (which form the running
open-bracket stack of the emitted stream) together with the net cursor
shift at which each was emitted.  Every emitted stream is
cursor-consistent, the `addr` cursor equals the net shift of the whole
stream, and every ghost mark records the net shift of the stream up to
and including its byte. -/
def EmitInv (os : List (Nat × Int)) (ctx : Ctx) : Prop :=
  WellCur ctx.code ∧
  opAux ctx.code 0 [] = os.map Prod.fst ∧
  ctx.addr = net ctx.code ∧
  (∀ q ∈ os, q.1 < ctx.code.length ∧ q.2 = net (ctx.code.take q.1)) ∧
  (∀ q ∈ ctx.marks, q.1 ≤ ctx.code.length ∧ q.2 = net (ctx.code.take q.1))

/-- A byte that does not move the cursor does not change the net shift. -/
theorem net_snoc_zero (l : List Char) (c : Char) (h3 : ¬ c = '>') (h4 : ¬ c = '<') :
    net (l ++ [c]) = net l := by
  rw [net_append]
  show net l + (chDelta c + 0) = net l
  rw [chDelta, if_neg h3, if_neg h4]
  ring

/-- The block of bytes a seek emits moves the cursor by the offset. -/
theorem net_seek_ext (off : Int) :
    net (List.replicate off.natAbs (if 0 < off then '>' else '<')) = off := by
  by_cases h : 0 < off
  · rw [if_pos h, net_replicate_gt]; omega
  · rw [if_neg h, net_replicate_lt]; omega

/-- Appending bytes that contain no `]` preserves cursor-consistency. -/
theorem WellCur_append_no_close (c ext : List Char) (hw : WellCur c)
    (hext : ∀ x ∈ ext, x ≠ ']') : WellCur (c ++ ext) := by
  intro k hk
  by_cases hkc : k < c.length
  · have hk0 : c.get? k = some ']' := by rw [List.get?_append hkc] at hk; exact hk
    obtain ⟨j, js, hj, h1, h2⟩ := hw k hk0
    refine ⟨j, js, hj, ?_, ?_⟩
    · rw [List.take_append_of_le_length (by omega)]; exact h1
    · rw [List.take_append_of_le_length (by omega),
        List.take_append_of_le_length (by omega)]
      exact h2
  · exfalso
    rw [List.get?_append_right (by omega)] at hk
    exact hext ']' (List.get?_mem hk) rfl

/-- The invariant only looks at the code, cursor and marks. -/
theorem EmitInv_parts (os : List (Nat × Int)) (a b : Ctx)
    (hcode : a.code = b.code) (haddr : a.addr = b.addr) (hmarks : a.marks = b.marks)
    (h : EmitInv os b) : EmitInv os a := by
  obtain ⟨hw, hop, had, hos, hmk⟩ := h
  exact ⟨by rw [hcode]; exact hw, by rw [hcode]; exact hop,
    by rw [hcode, haddr]; exact had, by rw [hcode]; exact hos,
    by rw [hcode, hmarks]; exact hmk⟩

/-- Mark validity survives extension of the code. -/
theorem marks_extend (c2 ext : List Char) (ms : List (Nat × Int))
    (hmk : ∀ q ∈ ms, q.1 ≤ c2.length ∧ q.2 = net (c2.take q.1)) :
    ∀ q ∈ ms, q.1 ≤ (c2 ++ ext).length ∧ q.2 = net ((c2 ++ ext).take q.1) := by
  intro q hq
  obtain ⟨ha, hb⟩ := hmk q hq
  refine ⟨by rw [List.length_append]; omega, ?_⟩
  rw [List.take_append_of_le_length (by omega)]
  exact hb

/-- Open-bracket records survive extension of the code. -/
theorem os_extend (c2 ext : List Char) (os : List (Nat × Int))
    (hos : ∀ q ∈ os, q.1 < c2.length ∧ q.2 = net (c2.take q.1)) :
    ∀ q ∈ os, q.1 < (c2 ++ ext).length ∧ q.2 = net ((c2 ++ ext).take q.1) := by
  intro q hq
  obtain ⟨ha, hb⟩ := hos q hq
  refine ⟨by rw [List.length_append]; omega, ?_⟩
  rw [List.take_append_of_le_length (by omega)]
  exact hb

/-- `seek` preserves the emitter invariant. -/
theorem EmitInv_seek (os : List (Nat × Int)) (ctx : Ctx) (p : Int)
    (h : EmitInv os ctx) : EmitInv os (seek p ctx) := by
  obtain ⟨hw, hop, haddr, hos, hmk⟩ := h
  have hcode : (seek p ctx).code = ctx.code ++ List.replicate (p - ctx.addr).natAbs
      (if 0 < p - ctx.addr then '>' else '<') := rfl
  have hdir : ∀ x ∈ List.replicate (p - ctx.addr).natAbs
      (if 0 < p - ctx.addr then '>' else '<'), x ≠ '[' ∧ x ≠ ']' := by
    intro x hx
    rw [List.eq_of_mem_replicate hx]
    by_cases h0 : 0 < p - ctx.addr
    · rw [if_pos h0]; exact ⟨by decide, by decide⟩
    · rw [if_neg h0]; exact ⟨by decide, by decide⟩
  refine ⟨?_, ?_, ?_, ?_, ?_⟩
  · rw [hcode]
    exact WellCur_append_no_close _ _ hw (fun x hx => (hdir x hx).2)
  · rw [hcode, opAux_append, opAux_no_brackets _ _ _ hdir]
    exact hop
  · show p = net (seek p ctx).code
    rw [hcode, net_append, net_seek_ext, ← haddr]
    ring
  · rw [hcode]
    exact os_extend _ _ os hos
  · rw [hcode]
    exact marks_extend _ _ ctx.marks hmk

/-- The mark recorded by `emitOp` is valid when the byte does not move
the cursor and the cursor was in sync. -/
theorem marks_emitOp_ok (ctx : Ctx) (c : Char) (h3 : ¬ c = '>') (h4 : ¬ c = '<')
    (haddr : ctx.addr = net ctx.code)
    (hmk : ∀ q ∈ ctx.marks, q.1 ≤ ctx.code.length ∧ q.2 = net (ctx.code.take q.1)) :
    ∀ q ∈ (emitOp ctx c).marks, q.1 ≤ (emitOp ctx c).code.length ∧
      q.2 = net ((emitOp ctx c).code.take q.1) := by
  intro q hq
  rw [show (emitOp ctx c).marks = ctx.marks ++ [(ctx.code.length + 1, ctx.addr)] from rfl,
    List.mem_append] at hq
  have hcode : (emitOp ctx c).code = ctx.code ++ [c] := rfl
  rcases hq with hq | hq
  · rw [hcode]
    exact marks_extend _ _ ctx.marks hmk q hq
  · rw [List.mem_singleton] at hq
    subst hq
    rw [hcode]
    refine ⟨by rw [List.length_append]; simp, ?_⟩
    show ctx.addr = _
    rw [List.take_of_length_le (by rw [List.length_append]; simp),
      net_snoc_zero _ _ h3 h4]
    exact haddr

/-- `emitOp` with a byte that is neither a bracket nor a cursor move
preserves the emitter invariant. -/
theorem EmitInv_emitOp_plain (os : List (Nat × Int)) (ctx : Ctx) (c : Char)
    (h1 : ¬ c = '[') (h2 : ¬ c = ']') (h3 : ¬ c = '>') (h4 : ¬ c = '<')
    (h : EmitInv os ctx) : EmitInv os (emitOp ctx c) := by
  obtain ⟨hw, hop, haddr, hos, hmk⟩ := h
  have hcode : (emitOp ctx c).code = ctx.code ++ [c] := rfl
  refine ⟨?_, ?_, ?_, ?_, ?_⟩
  · rw [hcode]
    refine WellCur_append_no_close _ _ hw ?_
    intro x hx
    rw [List.mem_singleton] at hx
    subst hx
    exact h2
  · rw [hcode, opAux_append]
    show opAux [c] (0 + ctx.code.length) (opAux ctx.code 0 []) = _
    simp only [opAux]
    rw [if_neg h1, if_neg h2]
    exact hop
  · show ctx.addr = _
    rw [hcode, net_snoc_zero _ _ h3 h4]
    exact haddr
  · rw [hcode]
    exact os_extend _ _ os hos
  · exact marks_emitOp_ok ctx c h3 h4 haddr hmk

/-- `emitOp '['` pushes the new `[` byte, recorded with the cursor at
which it was emitted. -/
theorem EmitInv_emitOp_open (os : List (Nat × Int)) (ctx : Ctx)
    (h : EmitInv os ctx) :
    EmitInv ((ctx.code.length, ctx.addr) :: os) (emitOp ctx '[') := by
  obtain ⟨hw, hop, haddr, hos, hmk⟩ := h
  have hcode : (emitOp ctx '[').code = ctx.code ++ ['['] := rfl
  refine ⟨?_, ?_, ?_, ?_, ?_⟩
  · rw [hcode]
    refine WellCur_append_no_close _ _ hw ?_
    intro x hx
    rw [List.mem_singleton] at hx
    subst hx
    decide
  · rw [hcode, opAux_append]
    show opAux ['['] (0 + ctx.code.length) (opAux ctx.code 0 []) = _
    simp only [opAux]
    rw [if_pos trivial, hop]
    show (0 + ctx.code.length) :: _ = _
    rw [Nat.zero_add]
    rfl
  · show ctx.addr = _
    rw [hcode, net_snoc_zero _ _ (by decide) (by decide)]
    exact haddr
  · intro q hq
    rw [List.mem_cons] at hq
    rcases hq with hq | hq
    · subst hq
      rw [hcode]
      refine ⟨by rw [List.length_append]; simp, ?_⟩
      show ctx.addr = _
      rw [List.take_append_of_le_length (le_refl _), List.take_length]
      exact haddr
    · rw [hcode]
      exact os_extend _ _ os hos q hq
  · exact marks_emitOp_ok ctx '[' (by decide) (by decide) haddr hmk

/-- `emitOp ']'` closes the innermost open `[`.  Requires the cursor to
be back where the `[` was emitted (looping constructs seek back before
closing); this is what makes the closed stream cursor-consistent. -/
theorem EmitInv_emitOp_close (os : List (Nat × Int)) (ctx : Ctx) (j : Nat) (a : Int)
    (ha : a = ctx.addr) (h : EmitInv ((j, a) :: os) ctx) :
    EmitInv os (emitOp ctx ']') := by
  subst ha
  obtain ⟨hw, hop, haddr, hos, hmk⟩ := h
  have hcode : (emitOp ctx ']').code = ctx.code ++ [']'] := rfl
  have hjfacts := hos (j, ctx.addr) (List.mem_cons_self _ _)
  refine ⟨?_, ?_, ?_, ?_, ?_⟩
  · rw [hcode]
    intro k hk
    by_cases hkc : k < ctx.code.length
    · have hk0 : ctx.code.get? k = some ']' := by
        rw [List.get?_append hkc] at hk
        exact hk
      obtain ⟨j2, js, hj2, hx1, hx2⟩ := hw k hk0
      refine ⟨j2, js, hj2, ?_, ?_⟩
      · rw [List.take_append_of_le_length (by omega)]
        exact hx1
      · rw [List.take_append_of_le_length (by omega),
          List.take_append_of_le_length (by omega)]
        exact hx2
    · have hklen : k = ctx.code.length := by
        obtain ⟨hlt, _⟩ := List.get?_eq_some.mp hk
        rw [List.length_append] at hlt
        simp at hlt
        omega
      subst hklen
      refine ⟨j, os.map Prod.fst, hjfacts.1, ?_, ?_⟩
      · rw [List.take_append_of_le_length (le_refl _), List.take_length]
        exact hop
      · rw [List.take_append_of_le_length (le_refl _), List.take_length,
          List.take_append_of_le_length (by omega)]
        rw [← hjfacts.2]
        exact haddr.symm
  · rw [hcode, opAux_append]
    show opAux [']'] (0 + ctx.code.length) (opAux ctx.code 0 []) = _
    simp only [opAux]
    rw [if_pos trivial, hop]
    rfl
  · show ctx.addr = _
    rw [hcode, net_snoc_zero _ _ (by decide) (by decide)]
    exact haddr
  · intro q hq
    rw [hcode]
    exact os_extend _ _ os (fun q2 hq2 => hos q2 (List.mem_cons_of_mem _ hq2)) q hq
  · exact marks_emitOp_ok ctx ']' (by decide) (by decide) haddr hmk

/-- `map_known_value` only touches the known-value shadow. -/
theorem mapKnownValue_parts (p : Int) (f : Nat → Option Nat) (ctx c2 : Ctx)
    (h : mapKnownValue p f ctx = some c2) :
    c2.code = ctx.code ∧ c2.addr = ctx.addr ∧ c2.marks = ctx.marks := by
  unfold mapKnownValue at h
  by_cases hp : p < 0
  · rw [if_pos hp] at h
    cases h
    exact ⟨rfl, rfl, rfl⟩
  · rw [if_neg hp] at h
    cases hkv : ctx.knownValues.get? p.toNat with
    | none =>
      rw [hkv] at h
      cases h
      exact ⟨rfl, rfl, rfl⟩
    | some ov =>
      cases ov with
      | none =>
        rw [hkv] at h
        cases h
        exact ⟨rfl, rfl, rfl⟩
      | some v =>
        rw [hkv] at h
        have h2 : ((f v).map fun v2 =>
            { ctx with knownValues := ctx.knownValues.set p.toNat (some v2) }) = some c2 := h
        cases hfv : f v with
        | none =>
          rw [hfv] at h2
          exact absurd h2 (by simp)
        | some v2 =>
          rw [hfv] at h2
          cases h2
          exact ⟨rfl, rfl, rfl⟩

/-- `assume` only touches the known-value shadow. -/
theorem assume_parts (p : Int) (v : Nat) (ctx : Ctx) :
    (assume p v ctx).code = ctx.code ∧ (assume p v ctx).addr = ctx.addr ∧
    (assume p v ctx).marks = ctx.marks := by
  unfold assume
  split <;> exact ⟨rfl, rfl, rfl⟩

/-- `forget` only touches the known-value shadow. -/
theorem forget_parts (p : Int) (ctx : Ctx) :
    (forget p ctx).code = ctx.code ∧ (forget p ctx).addr = ctx.addr ∧
    (forget p ctx).marks = ctx.marks := by
  unfold forget
  split
  · exact ⟨rfl, rfl, rfl⟩
  · split <;> exact ⟨rfl, rfl, rfl⟩

/-- Folding `emitOp` over bytes that are neither brackets nor cursor
moves preserves the emitter invariant. -/
theorem EmitInv_foldl (os : List (Nat × Int)) : ∀ (cs : List Char) (ctx : Ctx),
    (∀ x ∈ cs, ¬ x = '[' ∧ ¬ x = ']' ∧ ¬ x = '>' ∧ ¬ x = '<') →
    EmitInv os ctx → EmitInv os (cs.foldl emitOp ctx) := by
  intro cs
  induction cs with
  | nil => intro ctx _ h; exact h
  | cons c rest ih =>
    intro ctx hcs h
    obtain ⟨h1, h2, h3, h4⟩ := hcs c (by simp)
    exact ih (emitOp ctx c) (fun x hx => hcs x (by simp [hx]))
      (EmitInv_emitOp_plain os ctx c h1 h2 h3 h4 h)

/-- `clear` preserves the emitter invariant: its `[` and `]` are emitted
at the same cursor. -/
theorem EmitInv_clear (os : List (Nat × Int)) (p : Int) (ctx c2 : Ctx)
    (h : EmitInv os ctx) (hc : clear p ctx = some c2) : EmitInv os c2 := by
  unfold clear at hc
  by_cases hv : value p ctx = some 0
  · rw [if_pos hv] at hc
    cases hc
    exact h
  · rw [if_neg hv] at hc
    cases hc
    obtain ⟨h1, h2, h3⟩ :=
      assume_parts p 0 (emitOp (emitOp (emitOp (seek p ctx) '[') '-') ']')
    refine EmitInv_parts os _ _ h1 h2 h3 ?_
    refine EmitInv_emitOp_close os _ ((seek p ctx).code.length) ((seek p ctx).addr) rfl ?_
    refine EmitInv_emitOp_plain _ _ '-' (by decide) (by decide) (by decide) (by decide) ?_
    exact EmitInv_emitOp_open os (seek p ctx) (EmitInv_seek os ctx p h)

/-- `increment_by` preserves the emitter invariant. -/
theorem EmitInv_incrementBy (os : List (Nat × Int)) (p : Int) (n : Nat) (ctx c2 : Ctx)
    (h : EmitInv os ctx) (hc : incrementBy p n ctx = some c2) : EmitInv os c2 := by
  have hc2 : mapKnownValue p (fun v => chkAdd v n)
      ((List.replicate n '+').foldl emitOp (seek p ctx)) = some c2 := hc
  obtain ⟨h1, h2, h3⟩ := mapKnownValue_parts p _ _ c2 hc2
  refine EmitInv_parts os c2 _ h1 h2 h3 ?_
  refine EmitInv_foldl os (List.replicate n '+') (seek p ctx) ?_ (EmitInv_seek os ctx p h)
  intro x hx
  rw [List.eq_of_mem_replicate hx]
  exact ⟨by decide, by decide, by decide, by decide⟩

/-- `decrement_by` preserves the emitter invariant. -/
theorem EmitInv_decrementBy (os : List (Nat × Int)) (p : Int) (n : Nat) (ctx c2 : Ctx)
    (h : EmitInv os ctx) (hc : decrementBy p n ctx = some c2) : EmitInv os c2 := by
  have hc2 : mapKnownValue p (fun v => chkSub v n)
      ((List.replicate n '-').foldl emitOp (seek p ctx)) = some c2 := hc
  obtain ⟨h1, h2, h3⟩ := mapKnownValue_parts p _ _ c2 hc2
  refine EmitInv_parts os c2 _ h1 h2 h3 ?_
  refine EmitInv_foldl os (List.replicate n '-') (seek p ctx) ?_ (EmitInv_seek os ctx p h)
  intro x hx
  rw [List.eq_of_mem_replicate hx]
  exact ⟨by decide, by decide, by decide, by decide⟩

/-- `set` preserves the emitter invariant. -/
theorem EmitInv_set (os : List (Nat × Int)) (p : Int) (v : Nat) (ctx c2 : Ctx)
    (h : EmitInv os ctx) (hc : set p v ctx = some c2) : EmitInv os c2 := by
  unfold set at hc
  by_cases hv : value p ctx = some v
  · rw [if_pos hv] at hc
    cases hc
    exact h
  · rw [if_neg hv] at hc
    cases hcl : clear p (seek p ctx) with
    | none =>
      rw [hcl] at hc
      exact absurd hc (by simp)
    | some c1 =>
      rw [hcl] at hc
      exact EmitInv_incrementBy os p v c1 c2
        (EmitInv_clear os p (seek p ctx) c1 (EmitInv_seek os ctx p h) hcl) hc

/-- `increment` preserves the emitter invariant. -/
theorem EmitInv_increment (os : List (Nat × Int)) (p : Int) (ctx c2 : Ctx)
    (h : EmitInv os ctx) (hc : increment p ctx = some c2) : EmitInv os c2 := by
  have hc2 : mapKnownValue p (fun v => chkAdd v 1) (emitOp (seek p ctx) '+') = some c2 := hc
  obtain ⟨h1, h2, h3⟩ := mapKnownValue_parts p _ _ c2 hc2
  refine EmitInv_parts os c2 _ h1 h2 h3 ?_
  exact EmitInv_emitOp_plain os _ '+' (by decide) (by decide) (by decide) (by decide)
    (EmitInv_seek os ctx p h)

/-- `decrement` preserves the emitter invariant. -/
theorem EmitInv_decrement (os : List (Nat × Int)) (p : Int) (ctx c2 : Ctx)
    (h : EmitInv os ctx) (hc : decrement p ctx = some c2) : EmitInv os c2 := by
  have hc2 : mapKnownValue p (fun v => chkSub v 1) (emitOp (seek p ctx) '-') = some c2 := hc
  obtain ⟨h1, h2, h3⟩ := mapKnownValue_parts p _ _ c2 hc2
  refine EmitInv_parts os c2 _ h1 h2 h3 ?_
  exact EmitInv_emitOp_plain os _ '-' (by decide) (by decide) (by decide) (by decide)
    (EmitInv_seek os ctx p h)

/-- `set_bool` preserves the emitter invariant. -/
theorem EmitInv_setBool (os : List (Nat × Int)) (p : Int) (b : Bool) (ctx c2 : Ctx)
    (h : EmitInv os ctx) (hc : setBool p b ctx = some c2) : EmitInv os c2 := by
  unfold setBool at hc
  cases hv : value p ctx with
  | none =>
    rw [hv] at hc
    exact EmitInv_set os p _ ctx c2 h hc
  | some v =>
    rw [hv] at hc
    cases v with
    | zero => exact EmitInv_increment os p ctx c2 h hc
    | succ v1 =>
      cases v1 with
      | zero => exact EmitInv_decrement os p ctx c2 h hc
      | succ n => exact EmitInv_set os p _ ctx c2 h hc

/-- `print` preserves the emitter invariant. -/
theorem EmitInv_print (os : List (Nat × Int)) (p : Int) (ctx c2 : Ctx)
    (h : EmitInv os ctx) (hc : print p ctx = some c2) : EmitInv os c2 := by
  cases hc
  exact EmitInv_emitOp_plain os _ '.' (by decide) (by decide) (by decide) (by decide)
    (EmitInv_seek os ctx p h)

/-- `read` preserves the emitter invariant. -/
theorem EmitInv_read (os : List (Nat × Int)) (p : Int) (ctx c2 : Ctx)
    (h : EmitInv os ctx) (hc : read p ctx = some c2) : EmitInv os c2 := by
  cases hc
  refine EmitInv_emitOp_plain os _ ',' (by decide) (by decide) (by decide) (by decide) ?_
  obtain ⟨h1, h2, h3⟩ := forget_parts p (seek p ctx)
  exact EmitInv_parts os _ _ h1 h2 h3 (EmitInv_seek os ctx p h)

/-- Every command sequence preserves the emitter invariant; in
particular `while_not_zero` closes its `[` at the cursor it was opened
at, because it seeks the loop cell again before emitting `]`. -/
theorem emitCmd_inv : ∀ (cmd : Cmd) (os : List (Nat × Int)) (ctx c2 : Ctx),
    EmitInv os ctx → emitCmd cmd ctx = some c2 → EmitInv os c2 := by
  intro cmd
  induction cmd with
  | skip =>
    intro os ctx c2 h hc
    cases hc
    exact h
  | seq a b iha ihb =>
    intro os ctx c2 h hc
    have hc2 : (emitCmd a ctx).bind (emitCmd b) = some c2 := hc
    cases ha : emitCmd a ctx with
    | none =>
      rw [ha] at hc2
      exact absurd hc2 (by simp)
    | some c1 =>
      rw [ha] at hc2
      exact ihb os c1 c2 (iha os ctx c1 h ha) hc2
  | clearC p =>
    intro os ctx c2 h hc
    exact EmitInv_clear os p ctx c2 h hc
  | setC p v =>
    intro os ctx c2 h hc
    exact EmitInv_set os p v ctx c2 h hc
  | setBoolC p b =>
    intro os ctx c2 h hc
    exact EmitInv_setBool os p b ctx c2 h hc
  | incC p =>
    intro os ctx c2 h hc
    exact EmitInv_increment os p ctx c2 h hc
  | decC p =>
    intro os ctx c2 h hc
    exact EmitInv_decrement os p ctx c2 h hc
  | incByC p n =>
    intro os ctx c2 h hc
    exact EmitInv_incrementBy os p n ctx c2 h hc
  | decByC p n =>
    intro os ctx c2 h hc
    exact EmitInv_decrementBy os p n ctx c2 h hc
  | printC p =>
    intro os ctx c2 h hc
    exact EmitInv_print os p ctx c2 h hc
  | readC p =>
    intro os ctx c2 h hc
    exact EmitInv_read os p ctx c2 h hc
  | assumeC p v =>
    intro os ctx c2 h hc
    cases hc
    obtain ⟨h1, h2, h3⟩ := assume_parts p v ctx
    exact EmitInv_parts os _ ctx h1 h2 h3 h
  | forgetC p =>
    intro os ctx c2 h hc
    cases hc
    obtain ⟨h1, h2, h3⟩ := forget_parts p ctx
    exact EmitInv_parts os _ ctx h1 h2 h3 h
  | whileC p body ih =>
    intro os ctx c2 h hc
    have hc2 : (emitCmd body (forgetAll (emitOp (seek p ctx) '['))).map
        (fun c3 => emitOp (seek p c3) ']') = some c2 := hc
    cases hb : emitCmd body (forgetAll (emitOp (seek p ctx) '[')) with
    | none =>
      rw [hb] at hc2
      exact absurd hc2 (by simp)
    | some c3 =>
      rw [hb] at hc2
      have hc3 : emitOp (seek p c3) ']' = c2 := Option.some.inj hc2
      subst hc3
      have h1 : EmitInv (((seek p ctx).code.length, (seek p ctx).addr) :: os)
          (forgetAll (emitOp (seek p ctx) '[')) :=
        EmitInv_parts _ _ _ rfl rfl rfl
          (EmitInv_emitOp_open os (seek p ctx) (EmitInv_seek os ctx p h))
      exact EmitInv_emitOp_close os (seek p c3) (seek p ctx).code.length
        (seek p ctx).addr rfl (EmitInv_seek _ c3 p (ih _ _ c3 h1 hb))

/-- A fresh context satisfies the emitter invariant with no open `[`. -/
theorem EmitInv_fresh : EmitInv [] fresh := by
  refine ⟨WellCur_nil, rfl, rfl, ?_, ?_⟩ <;>
    exact fun q hq => absurd hq (List.not_mem_nil q)

end Brainfeed

/-- The context `read(0)` produces from a fresh context: one `,` byte,
marked with cursor 0. -/
def c10readCtx : Brainfeed.Ctx := ⟨[','], 0, [], [], [(1, 0)]⟩

/-- A sample command sequence: set cell 0 to 2, then loop decrementing
it to zero. -/
def c10prog : Brainfeed.Cmd := .seq (.setC 0 2) (.whileC 0 (.decC 0))

/-- The context `c10prog` emission produces from a fresh context. -/
def c10ctx : Brainfeed.Ctx :=
  ⟨['[', '-', ']', '+', '+', '[', '-', ']'], 0, [], [none],
   [(1, 0), (2, 0), (3, 0), (4, 0), (5, 0), (6, 0), (7, 0), (8, 0)]⟩

/-- C10, literal reading refuted: the cursor-soundness property says
executing the stream emitted so far leaves the data pointer at the
cursor, but the prefix ending at the `,` byte that `read(0)` emits does
not leave the data pointer anywhere: the reference VM panics
(`unimplemented!`) on `,`, so the run returns no final state at all. -/
theorem claim_C10_literal_counterexample :
    Brainfeed.emitCmd (.readC 0) Brainfeed.fresh = some c10readCtx ∧
    (1, (0 : Int)) ∈ c10readCtx.marks ∧
    Minibf.run (c10readCtx.code.take 1) Minibf.MAX_STEPS (Minibf.start Minibf.zeroMem) =
      none := by
  refine ⟨by decide, by decide, ?_⟩
  rfl

/-- C10 (amended): cursor soundness on completed runs.  For every
sequence of primitive calls on a fresh context, at every point where a
primitive emits a non-seek byte, if the reference VM completes execution
of the byte stream emitted so far (rather than panicking on `.`/`,` or
an unmatched-`[` scan, or exceeding the step limit), it leaves the data
pointer at the Context's `addr` cursor at the time of emission, taken
modulo the tape size. -/
theorem claim_C10_cursor_soundness (cmd : Brainfeed.Cmd) (ctx2 : Brainfeed.Ctx)
    (hemit : Brainfeed.emitCmd cmd Brainfeed.fresh = some ctx2)
    (k : Nat) (a : Int) (hmark : (k, a) ∈ ctx2.marks)
    (f : Nat) (st2 : Minibf.VMSt)
    (hrun : Minibf.run (ctx2.code.take k) f (Minibf.start Minibf.zeroMem) = some st2) :
    st2.dp = (a % 30000).toNat := by
  obtain ⟨hw, _, _, _, hmk⟩ :=
    Brainfeed.emitCmd_inv cmd [] Brainfeed.fresh ctx2 Brainfeed.EmitInv_fresh hemit
  obtain ⟨hk, ha⟩ := hmk (k, a) hmark
  have ha2 : a = Brainfeed.net (ctx2.code.take k) := ha
  obtain ⟨⟨_, hdp, hle⟩, hend⟩ := run_cInv f (ctx2.code.take k)
    (Minibf.start Minibf.zeroMem) st2 (Brainfeed.WellCur_take _ hw k)
    ⟨rfl, rfl, Nat.zero_le _⟩ hrun
  rw [List.take_of_length_le (by omega)] at hdp
  rw [hdp, ha2]

/-- C10 witness: the program that sets cell 0 to 2 and loops it back to
zero emits `[-]++[-]`; the run of the full stream (the prefix at the
final `]` mark) completes with the data pointer at cell 0, the recorded
cursor. -/
theorem claim_C10_cursor_soundness_witness :
    Minibf.VMSt.dp ⟨Minibf.updMem (Minibf.updMem (Minibf.updMem
        (Minibf.updMem Minibf.zeroMem 0 1) 0 2) 0 1) 0 0, 0, [], 8⟩ =
      ((0 : Int) % 30000).toNat :=
  claim_C10_cursor_soundness c10prog c10ctx (by decide) 8 0 (by decide) 50
    ⟨Minibf.updMem (Minibf.updMem (Minibf.updMem
        (Minibf.updMem Minibf.zeroMem 0 1) 0 2) 0 1) 0 0, 0, [], 8⟩ (by rfl)
